import Mathlib

/-!
# Verification of `suspect/io/twix.py`

A shallow embedding of the TWIX raw-data reader and header anonymizer from
`suspect/io/twix.py`, together with theorems settling the specification
claims about it.

Conventions:
* bytes are `Nat` values (always < 256 in well-formed inputs), multi-byte
  integers are decoded little-endian with explicit arithmetic;
* header text is `List Char`;
* 32-bit float samples are kept as their raw little-endian 4-byte words
  (`Nat < 2^32`); negating a float is exactly an IEEE-754 sign-bit flip, so
  the complex-conjugation step is modelled as flipping bit 31 of the word;
* fallible operations (a failed `re.search` followed by `.group`, a short
  `read` feeding `struct.unpack`, a `ValueError`, …) return `Option`.

The Python regular expressions are modelled by a small engine for exactly
the fragment of `re` syntax that `twix.py` uses (literals, `.`, character
classes, greedy `+`/`*`, top-level groups), with Python's leftmost,
greedy-with-backtracking semantics.  Character classes `\d`, `\s`, `\w` are
modelled at their ASCII meaning (TWIX headers are ASCII).
-/

namespace Twix

/-- Regex atoms of the fragment used by `twix.py`: a literal character,
`.` (any character except newline), or a character class given by a
predicate (e.g. `\d`, `\s`, `\w`, `[^\"]`, `[\d\.]`). -/
inductive RAtom where
  | lit (c : Char)
  | dot
  | cls (p : Char → Bool)

/-- One element of a regex sequence: a single atom, a greedy `+`, or a
greedy `*` (all quantifiers in `twix.py` are applied to single atoms). -/
inductive RElem where
  | atom (a : RAtom)
  | plus (a : RAtom)
  | star (a : RAtom)

/-- Does atom `a` match the single character `c`? -/
def matchAtom : RAtom → Char → Bool
  | .lit c, d => c == d
  | .dot, d => d != '\n'
  | .cls p, d => p d

/-- Length of the maximal prefix run of characters matching atom `a`. -/
def runLen (a : RAtom) (s : List Char) : Nat :=
  (s.takeWhile (matchAtom a)).length

/-- All suffixes of `s` reachable by matching the element sequence `es` at
the start of `s`, in Python's backtracking priority order (greedy
quantifiers try the longest repetition first). -/
def seqCands : List RElem → List Char → List (List Char)
  | [], s => [s]
  | .atom _ :: _, [] => []
  | .atom a :: es, c :: s => if matchAtom a c then seqCands es s else []
  | .star a :: es, s =>
      let r := runLen a s
      (List.range (r + 1)).flatMap (fun j => seqCands es (s.drop (r - j)))
  | .plus a :: es, s =>
      let r := runLen a s
      (List.range r).flatMap (fun j => seqCands es (s.drop (r - j)))

/-- A pattern is a concatenation of parenthesised groups (every grouped
pattern in `twix.py` is exactly a sequence of top-level groups; a pattern
without parentheses is a single group). -/
abbrev Pattern := List (List RElem)

/-- All ways to match the groups of `p` at the start of `s`: each candidate
is the list of per-group consumed lengths together with the remaining
suffix, in backtracking priority order. -/
def groupCands : Pattern → List Char → List (List Nat × List Char)
  | [], s => [([], s)]
  | g :: gs, s =>
      (seqCands g s).flatMap (fun r =>
        (groupCands gs r).map (fun c => ((s.length - r.length) :: c.1, c.2)))

/-- Anchored leftmost-greedy match of `p` at the start of `s`: the per-group
consumed lengths of the first candidate, as Python's engine would commit to. -/
def matchAt (p : Pattern) (s : List Char) : Option (List Nat) :=
  (groupCands p s).head?.map Prod.fst

/-- `re.search`: try an anchored match at each position from the left;
`i` is the offset of `s` inside the original subject. -/
def reSearchAux (p : Pattern) (s : List Char) (i : Nat) : Option (Nat × List Nat) :=
  match matchAt p s with
  | some lens => some (i, lens)
  | none =>
    match s with
    | [] => none
    | _ :: s' => reSearchAux p s' (i + 1)

/-- `re.search` over the whole subject: start offset of the leftmost match
together with its per-group consumed lengths. -/
def reSearch (p : Pattern) (s : List Char) : Option (Nat × List Nat) :=
  reSearchAux p s 0

/-- Text of group `k` (1-based, as in Python's `match.group(k)`) of a match
of `p` starting at offset `start` with group lengths `lens`. -/
def groupText (s : List Char) (start : Nat) (lens : List Nat) (k : Nat) : List Char :=
  (s.drop (start + (lens.take (k - 1)).sum)).take (lens.getD (k - 1) 0)

/-- `match.span(k)`: start and end offset of group `k` (1-based). -/
def groupSpan (start : Nat) (lens : List Nat) (k : Nat) : Nat × Nat :=
  (start + (lens.take (k - 1)).sum,
   start + (lens.take (k - 1)).sum + lens.getD (k - 1) 0)

/-- The texts of all groups of a match beginning at offset `i`. -/
def groupTextsAt (s : List Char) (i : Nat) : List Nat → List (List Char)
  | [] => []
  | l :: ls => (s.drop i).take l :: groupTextsAt s (i + l) ls

/-- Core of `re.sub`: replace every non-overlapping leftmost match of `p`
in `s`, returning the new text together with the list of replaced spans in
the coordinates of the original subject (`off` is the offset of `s` in it).
`repl` receives the whole matched text and the group texts.  `fuel` bounds
the recursion; `reSub` supplies a sufficient amount (every substituted
pattern in `twix.py` matches only non-empty text, and, as in Python's
scanner, an empty match still consumes one further character). -/
def reSubCore (p : Pattern) (repl : List Char → List (List Char) → List Char) :
    Nat → List Char → Nat → List Char × List (Nat × Nat)
  | 0, s, _ => (s, [])
  | fuel + 1, s, off =>
    match reSearch p s with
    | none => (s, [])
    | some (i, lens) =>
      let len := lens.sum
      let pre := s.take i
      let m := (s.drop i).take len
      let gs := groupTextsAt s i lens
      if len = 0 then
        match s.drop i with
        | [] => (pre ++ repl m gs, [(off + i, off + i)])
        | c :: rest =>
          let t := reSubCore p repl fuel rest (off + i + 1)
          (pre ++ repl m gs ++ c :: t.1, (off + i, off + i) :: t.2)
      else
        let t := reSubCore p repl fuel (s.drop (i + len)) (off + i + len)
        (pre ++ repl m gs ++ t.1, (off + i, off + i + len) :: t.2)

/-- `re.sub`: the substituted text. -/
def reSub (p : Pattern) (repl : List Char → List (List Char) → List Char)
    (s : List Char) : List Char :=
  (reSubCore p repl (s.length + 1) s 0).1

/-- The spans (in original coordinates) replaced by `reSub`. -/
def reSubSpans (p : Pattern) (repl : List Char → List (List Char) → List Char)
    (s : List Char) : List (Nat × Nat) :=
  (reSubCore p repl (s.length + 1) s 0).2

/-- Number of non-overlapping leftmost matches of `p` in `s` (the number of
matches `re.sub`/`re.finditer` would visit). -/
def countMatches (p : Pattern) (s : List Char) : Nat :=
  (reSubSpans p (fun _ _ => []) s).length

/-- The characters escaped by Python's `re.escape` (CPython's
`_special_chars_map`, Python ≥ 3.7). -/
def isSpecialChar (c : Char) : Bool :=
  ['(', ')', '[', ']', '{', '}', '?', '*', '+', '-', '|', '^', '$',
   '\\', '.', '&', '~', '#', ' ', '\t', '\n', '\r', '\x0b', '\x0c'].contains c

/-- Python's `re.escape`. -/
def reEscape (s : List Char) : List Char :=
  s.flatMap (fun c => if isSpecialChar c then ['\\', c] else [c])

/-- Compile a runtime string into an element sequence of the modelled
fragment: plain characters and backslash-escaped special characters, both
denoting literals.  A bare metacharacter or an escape such as `\d` falls
outside the modelled fragment and yields `none` (Python would interpret it
as regex syntax; `twix.py` only ever feeds such strings to `re.sub` as
patterns, and the claims are settled on literal-only values). -/
def compileLits : List Char → Option (List RElem)
  | [] => some []
  | '\\' :: c :: rest =>
      if isSpecialChar c then (compileLits rest).map (RElem.atom (.lit c) :: ·)
      else none
  | ['\\'] => none
  | c :: rest =>
      if isSpecialChar c then none
      else (compileLits rest).map (RElem.atom (.lit c) :: ·)

/-- A sequence of literal atoms for the characters of `s`. -/
def lits (s : String) : List RElem :=
  s.toList.map (fun c => RElem.atom (.lit c))

/-- ASCII `\d`. -/
def isDigitChar (c : Char) : Bool := c.isDigit

/-- ASCII `\s`: `[ \t\n\r\v\f]`. -/
def isSpaceChar (c : Char) : Bool :=
  [' ', '\t', '\n', '\r', '\x0b', '\x0c'].contains c

/-- ASCII `\w`: `[a-zA-Z0-9_]`. -/
def isWordChar (c : Char) : Bool := c.isAlphanum || c == '_'

/-- `[\d\.]`. -/
def isDigitDotChar (c : Char) : Bool := c.isDigit || c == '.'

/-- Python `str.split(sep)` for a one-character separator. -/
def splitOn (sep : Char) (s : List Char) : List (List Char) :=
  match s with
  | [] => [[]]
  | c :: rest =>
    let r := splitOn sep rest
    if c == sep then [] :: r
    else match r with
      | [] => [[c]]
      | h :: t => (c :: h) :: t

/-! ## The concrete patterns of `twix.py`

Each definition transcribes one regular-expression literal from the source
into the fragment AST; the original pattern text is quoted in the comment. -/

/-- `(<ParamString.\"PatientID\">  { )(\".+\")(  }\n)` (line 327). -/
def anonPatientIDPat : Pattern :=
  [lits "<ParamString" ++ [.atom .dot] ++ lits "\"PatientID\">  \x7b ",
   [.atom (.lit '"'), .plus .dot, .atom (.lit '"')],
   lits "  \x7d\n"]

/-- `(<ParamString.\"PatientBirthDay\">  { )(\".+\")(  }\n)` (line 330). -/
def anonBirthDayPat : Pattern :=
  [lits "<ParamString" ++ [.atom .dot] ++ lits "\"PatientBirthDay\">  \x7b ",
   [.atom (.lit '"'), .plus .dot, .atom (.lit '"')],
   lits "  \x7d\n"]

/-- `(<ParamString.\"PatientName\">  { )(\".+\")(  }\n)` (line 333). -/
def anonNamePat : Pattern :=
  [lits "<ParamString" ++ [.atom .dot] ++ lits "\"PatientName\">  \x7b ",
   [.atom (.lit '"'), .plus .dot, .atom (.lit '"')],
   lits "  \x7d\n"]

/-- `(<ParamLong.\"PatientSex\">  { )(\d+)(  }\n)` (line 338). -/
def patientSexPat : Pattern :=
  [lits "<ParamLong" ++ [.atom .dot] ++ lits "\"PatientSex\">  \x7b ",
   [.plus (.cls isDigitChar)],
   lits "  \x7d\n"]

/-- `(Sex\">\s+\{\s*)(\d)(\s*\})` (line 341). -/
def sexDupPat : Pattern :=
  [lits "Sex\">" ++ [.plus (.cls isSpaceChar), .atom (.lit '{'), .star (.cls isSpaceChar)],
   [.atom (.cls isDigitChar)],
   [.star (.cls isSpaceChar), .atom (.lit '}')]]

/-- `(<ParamString.\"FrameOfReference\">  { )(\".+\")(  }\n)` (line 352). -/
def frameOfReferencePat : Pattern :=
  [lits "<ParamString" ++ [.atom .dot] ++ lits "\"FrameOfReference\">  \x7b ",
   [.atom (.lit '"'), .plus .dot, .atom (.lit '"')],
   lits "  \x7d\n"]

/-- `[^\"]` (line 336). -/
def notQuotePat : Pattern := [[.atom (.cls (fun c => c != '"'))]]

/-- `\w` (line 359). -/
def wordPat : Pattern := [[.atom (.cls isWordChar)]]

/-- `\"[\d\.]*{0}[\d\.]*\"` with the exam date interpolated (line 358);
`none` when the interpolated text leaves the modelled fragment. -/
def mkDatePat (examDate : List Char) : Option Pattern :=
  (compileLits examDate).map (fun mid =>
    [[RElem.atom (.lit '"'), .star (.cls isDigitDotChar)] ++ mid ++
     [.star (.cls isDigitDotChar), .atom (.lit '"')]])

/-! ## `anonymize_twix_header` (lines 312–362)

The function is split into one definition per substitution pass so that the
intermediate strings can be named in theorem statements; `anonymize_twix_header`
chains them exactly in source order. -/

/-- Lines 327–328: find the quoted PatientID value and replace every
occurrence of it (used as a pattern) by quotes around a run of `x`. -/
def anonIdStep (s : List Char) : Option (List Char) := do
  let (i, lens) ← reSearch anonPatientIDPat s
  let pid := groupText s i lens 2
  let pat ← compileLits pid
  some (reSub [pat]
    (fun _ _ => '"' :: (List.replicate (pid.length - 2) 'x' ++ ['"'])) s)

/-- Lines 330–331: find the quoted PatientBirthDay value and replace every
occurrence of it by `"19700101"`. -/
def anonBdayStep (s : List Char) : Option (List Char) := do
  let (i, lens) ← reSearch anonBirthDayPat s
  let bd := groupText s i lens 2
  let pat ← compileLits bd
  some (reSub [pat] (fun _ _ => "\"19700101\"".toList) s)

/-- Lines 333–336: find the quoted PatientName value, `re.escape` it, and
replace every occurrence with every non-quote character turned into `x`. -/
def anonNameStep (s : List Char) : Option (List Char) := do
  let (i, lens) ← reSearch anonNamePat s
  let nm := reEscape (groupText s i lens 2)
  let pat ← compileLits nm
  some (reSub [pat] (fun m _ => reSub notQuotePat (fun _ _ => ['x']) m) s)

/-- Lines 338–339: splice the character `0` over the span of the PatientSex
digits. -/
def anonSexStep (s : List Char) : Option (List Char) := do
  let (i, lens) ← reSearch patientSexPat s
  let sp := groupSpan i lens 2
  some (s.take sp.1 ++ '0' :: s.drop sp.2)

/-- Lines 341–343: rewrite the digit of every other `Sex` field to `0`. -/
def anonSexDupStep (s : List Char) : List Char :=
  reSub sexDupPat (fun _ gs => gs.getD 0 [] ++ '0' :: gs.getD 2 []) s

/-- Lines 352–360: extract the exam date from the FrameOfReference value and
blank every quoted digits-and-dots string containing it. -/
def anonDateStep (s : List Char) : Option (List Char) := do
  let (i, lens) ← reSearch frameOfReferencePat s
  let frameOfReference := groupText s i lens 2
  let examDateTime ← (splitOn '.' frameOfReference).get? 10
  let examDate := (examDateTime.drop 2).take 6
  let pat ← mkDatePat examDate
  some (reSub pat (fun m _ => reSub wordPat (fun _ _ => ['x']) m) s)

/-- `anonymize_twix_header` (lines 312–362): the six passes in source
order; `none` models an uncaught Python exception (a failed search, an
out-of-range FrameOfReference index) or a pattern outside the modelled
regex fragment. -/
def anonymize_twix_header (s : List Char) : Option (List Char) := do
  let s1 ← anonIdStep s
  let s2 ← anonBdayStep s1
  let s3 ← anonNameStep s2
  let s4 ← anonSexStep s3
  let s5 := anonSexDupStep s4
  anonDateStep s5

/-! ## `parse_twix_header` (lines 66–88) -/

/-- `<ParamString.\"tProtocolName\">  { \".+\"  }\n` (line 68). -/
def protocolNamePat : Pattern :=
  [lits "<ParamString" ++ [.atom .dot] ++ lits "\"tProtocolName\">  \x7b \"" ++
   [.plus .dot] ++ lits "\"  \x7d\n"]

/-- `<ParamString.\"PatientID\">  { \".+\"  }\n` (line 71). -/
def parsePatientIDPat : Pattern :=
  [lits "<ParamString" ++ [.atom .dot] ++ lits "\"PatientID\">  \x7b \"" ++
   [.plus .dot] ++ lits "\"  \x7d\n"]

/-- `(<ParamString.\"PatientName\">  { \")(.+)(\"  }\n)` (line 73). -/
def parseNamePat : Pattern :=
  [lits "<ParamString" ++ [.atom .dot] ++ lits "\"PatientName\">  \x7b \"",
   [.plus .dot],
   lits "\"  \x7d\n"]

/-- `(<ParamString.\"PatientBirthDay\">  { \")(.+)(\"  }\n)` (line 74). -/
def parseBirthDayPat : Pattern :=
  [lits "<ParamString" ++ [.atom .dot] ++ lits "\"PatientBirthDay\">  \x7b \"",
   [.plus .dot],
   lits "\"  \x7d\n"]

/-- `<ParamLong.\"Frequency\">  { \d*  }` (line 76). -/
def freqPat : Pattern :=
  [lits "<ParamLong" ++ [.atom .dot] ++ lits "\"Frequency\">  \x7b " ++
   [.star (.cls isDigitChar)] ++ lits "  \x7d"]

/-- `<ParamLong.\"DwellTimeSig\">  { \d*  }` (line 79). -/
def dwellPat : Pattern :=
  [lits "<ParamLong" ++ [.atom .dot] ++ lits "\"DwellTimeSig\">  \x7b " ++
   [.star (.cls isDigitChar)] ++ lits "  \x7d"]

/-- `[0-9]+` (lines 77, 80). -/
def digitsPat : Pattern := [[.plus (.cls isDigitChar)]]

/-- The whole matched text (`match.group()`). -/
def matchText (s : List Char) (start : Nat) (lens : List Nat) : List Char :=
  (s.drop start).take lens.sum

/-- `int` on a string of decimal digits. -/
def natOfDigits (s : List Char) : Nat :=
  s.foldl (fun n c => 10 * n + (c.toNat - 48)) 0

/-- The dictionary returned by `parse_twix_header`.  The frequency and
dwell-time entries are kept as the raw parsed integers: the source scales
them into IEEE doubles (`f0 = n * 1e-6`, `dt = n * 1e-9`), a float
conversion outside the verified claims. -/
structure ParsedHeader where
  protocol_name : List Char
  patient_name : List Char
  patient_id : List Char
  patient_birthdate : List Char
  dt_raw : Nat
  f0_raw : Nat
deriving Repr, DecidableEq

/-- `parse_twix_header` (lines 66–88): `none` models the `AttributeError`
of `.group()` on a failed search (or an out-of-range `split` index). -/
def parse_twix_header (s : List Char) : Option ParsedHeader := do
  let (i1, l1) ← reSearch protocolNamePat s
  let protocol_name ← (splitOn '"' (matchText s i1 l1)).get? 3
  let (i2, l2) ← reSearch parsePatientIDPat s
  let patient_id ← (splitOn '"' (matchText s i2 l2)).get? 3
  let (i3, l3) ← reSearch parseNamePat s
  let patient_name := reEscape (groupText s i3 l3 2)
  let (i4, l4) ← reSearch parseBirthDayPat s
  let patient_birthdate := groupText s i4 l4 2
  let (i5, l5) ← reSearch freqPat s
  let (j5, m5) ← reSearch digitsPat (matchText s i5 l5)
  let f0_raw := natOfDigits (groupText (matchText s i5 l5) j5 m5 1)
  let (i6, l6) ← reSearch dwellPat s
  let (j6, m6) ← reSearch digitsPat (matchText s i6 l6)
  let dt_raw := natOfDigits (groupText (matchText s i6 l6) j6 m6 1)
  some { protocol_name, patient_name, patient_id, patient_birthdate, dt_raw, f0_raw }

/-! ## `TwixBuilder` (lines 13–63)

Complex samples are raw IEEE-754 single-precision bit patterns, kept as a
pair of 32-bit words `(re, im)`; the zero of `numpy.zeros` is `(0, 0)`
(`+0.0` has bit pattern `0`). -/

/-- A complex sample: the raw float words of its real and imaginary parts. -/
abbrev Cplx := Nat × Nat

/-- The mutable state of a `TwixBuilder` (the unused `self.dt` slot is
omitted; nothing in the source ever assigns or reads it). -/
structure Builder where
  header_params : Option ParsedHeader
  np : Option Nat
  num_channels : Option Nat
  data : List (List (List Cplx))
  loop_counters : List (List Nat)
deriving Repr, DecidableEq

/-- `TwixBuilder.__init__`. -/
def Builder.init : Builder :=
  { header_params := none, np := none, num_channels := none, data := [], loop_counters := [] }

/-- `TwixBuilder.set_np` (lines 25–30): `none` is the `ValueError` on a
conflicting second assignment. -/
def Builder.setNp (b : Builder) (v : Nat) : Option Builder :=
  match b.np with
  | none => some { b with np := some v }
  | some w => if w = v then some b else none

/-- `TwixBuilder.set_num_channels` (lines 32–37). -/
def Builder.setNumChannels (b : Builder) (v : Nat) : Option Builder :=
  match b.num_channels with
  | none => some { b with num_channels := some v }
  | some w => if w = v then some b else none

/-- `TwixBuilder.add_scan` (lines 39–41): append to both accumulation lists. -/
def Builder.addScan (b : Builder) (lc : List Nat) (sd : List (List Cplx)) : Builder :=
  { b with loop_counters := b.loop_counters ++ [lc], data := b.data ++ [sd] }

/-- A dense tensor, viewed as its shape plus a total entry function on
index lists (entries outside the shape are irrelevant to the claims). -/
structure Tensor where
  shape : List Nat
  entry : List Nat → Cplx

/-- `numpy.max(loop_counter_array, axis=0)[i]`: the per-dimension maximum
over the accumulated loop-counter tuples. -/
def maxIdx (ts : List (List Nat)) (i : Nat) : Nat :=
  (ts.map (fun t => t.getD i 0)).foldl max 0

/-- Entry `(c, k)` of a channel matrix. -/
def mEntry (m : List (List Cplx)) (c k : Nat) : Cplx :=
  (m.getD c []).getD k (0, 0)

/-- One scatter assignment `data[lc[0], …, lc[13]] = m` (line 50): on the
slice addressed by the 14 loop counters the matrix wins, elsewhere the
previous contents remain. -/
def scatterOne (f : List Nat → Cplx) (t : List Nat) (m : List (List Cplx)) :
    List Nat → Cplx :=
  fun v => if v.take 14 = t then mEntry m (v.getD 14 0) (v.getD 15 0) else f v

/-- Lines 44–51 of `build_mrsdata`: infer the shape, allocate zeros, and
scatter every accumulated scan in submission order.  `none` models the
failures of the numpy calls: `numpy.max` of an empty array, a ragged
loop-counter array, or `num_channels`/`np` never having been set. -/
def buildTensor (b : Builder) : Option Tensor :=
  if b.loop_counters.isEmpty then none
  else if !(b.loop_counters.all (fun t => t.length == 14)) then none
  else do
    let nc ← b.num_channels
    let np ← b.np
    some { shape := (List.range 14).map (fun i => 1 + maxIdx b.loop_counters i) ++ [nc, np]
           entry := (b.loop_counters.zip b.data).foldl
                      (fun f q => scatterOne f q.1 q.2) (fun _ => (0, 0)) }

/-- Re-insert an index `0` at every dimension of extent one (the inverse
index map of `numpy.squeeze`). -/
def expandIdx : List Nat → List Nat → List Nat
  | [], _ => []
  | d :: ds, vs =>
    if d = 1 then 0 :: expandIdx ds vs
    else vs.headD 0 :: expandIdx ds vs.tail

/-- `data.squeeze()` (line 54): drop every dimension of extent one,
preserving the order of the remaining dimensions. -/
def squeeze (T : Tensor) : Tensor :=
  { shape := T.shape.filter (fun d => d != 1)
    entry := fun v => T.entry (expandIdx T.shape v) }

/-- What `build_mrsdata` hands to the (out-of-scope) `MRSData` wrapper:
the squeezed tensor, the metadata mapping, and the two raw scalars. -/
structure MRSOut where
  tensor : Tensor
  patient_name : List Char
  patient_id : List Char
  patient_birthdate : List Char
  dt_raw : Nat
  f0_raw : Nat

/-- `TwixBuilder.build_mrsdata` (lines 43–63). -/
def build_mrsdata (b : Builder) : Option MRSOut := do
  let T ← buildTensor b
  let hp ← b.header_params
  some { tensor := squeeze T, patient_name := hp.patient_name,
         patient_id := hp.patient_id, patient_birthdate := hp.patient_birthdate,
         dt_raw := hp.dt_raw, f0_raw := hp.f0_raw }

/-! ## Binary scan-record decoding (lines 91–309) -/

/-- Little-endian value of a byte list. -/
def leVal : List Nat → Nat
  | [] => 0
  | b :: rest => b + 256 * leVal rest

/-- The little-endian `n`-byte value found at offset `o` of `d`. -/
def leValAt (d : List Nat) (o n : Nat) : Nat :=
  leVal ((d.drop o).take n)

/-- `struct.pack("I", n)`. -/
def le4 (n : Nat) : List Nat :=
  [n % 256, n / 256 % 256, n / 2 ^ 16 % 256, n / 2 ^ 24 % 256]

/-- `fin.read(n)` feeding `struct.unpack`: exactly `n` bytes from `pos`, or
`none` (`struct.error`) when fewer remain.  Returns the bytes and the new
stream position. -/
def rdBytes (n : Nat) (d : List Nat) (pos : Nat) : Option (List Nat × Nat) :=
  if pos + n ≤ d.length then some ((d.drop pos).take n, pos + n) else none

/-- Unpack consecutive little-endian 16-bit values (`struct.unpack("14H", …)`). -/
def leU16s : List Nat → List Nat
  | b0 :: b1 :: rest => (b0 + 256 * b1) :: leU16s rest
  | _ => []

/-- The 32-bit words of consecutive little-endian 4-byte groups: the raw
IEEE-754 single-precision patterns of `struct.unpack("<{n}f", …)` (their
numeric values are never combined arithmetically, so the bit pattern is a
faithful representation). -/
def f32words : List Nat → List Nat
  | b0 :: b1 :: b2 :: b3 :: rest => leVal [b0, b1, b2, b3] :: f32words rest
  | _ => []

/-- IEEE-754 negation of a single-precision word: flip the sign bit. -/
def negF32 (w : Nat) : Nat :=
  if w < 2 ^ 31 then w + 2 ^ 31 else w - 2 ^ 31

/-- `complex(r, -i)` over consecutive float pairs (lines 181–182): the
container stores the opposite sign convention, so the imaginary word is
negated. -/
def toPairsConj : List Nat → List Cplx
  | r :: i :: rest => (r, negF32 i) :: toPairsConj rest
  | _ => []

/-- `(eval_info_mask >> k) & 1`. -/
def flagBit (mask k : Nat) : Bool :=
  (mask >>> k) % 2 == 1

/-- Fuel-bounded floor of the base-2 logarithm (structurally recursive so
that the kernel can evaluate it; `log2floor_eq` identifies it with
`Nat.log2`). -/
def log2floorFuel : Nat → Nat → Nat
  | 0, _ => 0
  | fuel + 1, n => if n < 2 then 0 else log2floorFuel fuel (n / 2) + 1

/-- `⌊log2 n⌋` (0 at 0), computable by the kernel. -/
def log2floor (n : Nat) : Nat :=
  log2floorFuel n n

/-- `int(2 ** numpy.floor(numpy.log2(m)))` for an integer `m ≥ 0`: for
`1 ≤ m < 2^53` the float computation is exact and equals `2 ^ ⌊log2 m⌋`;
`numpy.log2(0)` is `-inf`, `2.0 ** -inf` is `0.0`, and `int` of it is `0`.
(A negative argument gives `nan` and `int(nan)` raises; the callers below
return `none` in that case.) -/
def pow2FloorLog2 (m : Nat) : Nat :=
  if m = 0 then 0 else 2 ^ log2floor m

/-- Per-channel read of `load_twix_vb` (lines 177–188): 4 bytes of channel
id and `ptab_pos_neg`, the `num_samples` conjugated float pairs sliced to
`[num_dummy_points, num_dummy_points + np)`, then `fin.read(124)` skipping
the repeated per-channel copy of the header (a plain `read`, so no failure
on a short tail). -/
def readChannelVB (d : List Nat) (pos ns ndp np : Nat) : Option (List Cplx × Nat) := do
  let (_, p) ← rdBytes 4 d pos
  let (db, p) ← rdBytes (ns * 4 * 2) d p
  some (((toPairsConj (f32words db)).drop ndp).take np, p + 124)

/-- The channel loop of `load_twix_vb` (lines 177–188), building the rows of
`scan_data` in channel order. -/
def readChannelsVB (d : List Nat) (ns ndp np : Nat) : Nat → Nat → Option (List (List Cplx) × Nat)
  | 0, pos => some ([], pos)
  | k + 1, pos => do
    let (row, p) ← readChannelVB d pos ns ndp np
    let (rows, p2) ← readChannelsVB d ns ndp np k p
    some (row :: rows, p2)

/-- Per-channel read of `load_twix_vd` (lines 273–284): a fixed 32-byte
channel header, then the `num_samples` conjugated float pairs sliced to
`[fid_start, fid_start + np)`. -/
def readChannelVD (d : List Nat) (pos ns fs np : Nat) : Option (List Cplx × Nat) := do
  let (_, p) ← rdBytes 32 d pos
  let (db, p) ← rdBytes (ns * 4 * 2) d p
  some (((toPairsConj (f32words db)).drop fs).take np, p)

/-- The channel loop of `load_twix_vd` (lines 273–284). -/
def readChannelsVD (d : List Nat) (ns fs np : Nat) : Nat → Nat → Option (List (List Cplx) × Nat)
  | 0, pos => some ([], pos)
  | k + 1, pos => do
    let (row, p) ← readChannelVD d pos ns fs np
    let (rows, p2) ← readChannelsVD d ns fs np k p
    some (row :: rows, p2)

/-- Outcome of one iteration of a scan-record loop. -/
inductive ScanStep where
  | acqEnd
  | skip (nextPos : Nat)
  | scan (b : Builder) (nextPos : Nat)
deriving Repr, DecidableEq

/-- The accepted-scan tail of one `load_twix_vb` loop iteration (lines
146–194): the reads after the flag dispatch, the usable-length computation,
the channel loop, and the seek to `start_position + DMA_length`. -/
def scanTailVB (d : List Nat) (pos : Nat) (b : Builder) (p0 DMA_length : Nat) :
    Option ScanStep := do
  let (hb, p) ← rdBytes 4 d p0
  let num_samples := leVal (hb.take 2)
  let num_channels := leVal (hb.drop 2)
  let b ← b.setNumChannels num_channels
  let (lcb, p) ← rdBytes 28 d p
  let loop_counters := leU16s lcb
  let (_, p) ← rdBytes 12 d p
  let (_, p) ← rdBytes 8 d p
  let (_, p) ← rdBytes 8 d p
  let (fpb, p) ← rdBytes 8 d p
  let num_dummy_points := leVal (fpb.take 2)
  if num_samples < num_dummy_points then none
  else do
    let np := pow2FloorLog2 (num_samples - num_dummy_points)
    let b ← b.setNp np
    let (_, p) ← rdBytes 28 d p
    let (rows, _) ← readChannelsVB d num_samples num_dummy_points np num_channels p
    some (ScanStep.scan (b.addScan loop_counters rows) (pos + DMA_length))

/-- One iteration of the `load_twix_vb` scan loop (lines 104–194), starting
at stream position `pos`:
* the low 26 bits of the leading 32-bit word are the DMA length;
* flag bit 0 of the 64-bit `eval_info_mask` ends the acquisition;
* bits 1, 2, 21, 25, 5 (`rt_feedback`, `hp_feedback`, `phase_correction`,
  `noise_adj_scan`, `sync_data`, in source order) skip the record;
* otherwise the scan is parsed and handed to the builder, and the stream
  moves to `start_position + DMA_length`. -/
def stepVB (d : List Nat) (pos : Nat) (b : Builder) : Option ScanStep := do
  let (tb, p) ← rdBytes 4 d pos
  let temp := leVal tb
  let DMA_length := temp % 2 ^ 26
  let (_, p) ← rdBytes 16 d p
  let (mb, p8) ← rdBytes 8 d p
  let mask := leVal mb
  if mask % 2 = 1 then
    some ScanStep.acqEnd
  else if flagBit mask 1 || flagBit mask 2 || flagBit mask 21 ||
          flagBit mask 25 || flagBit mask 5 then
    some (ScanStep.skip (pos + DMA_length))
  else
    scanTailVB d pos b p8 DMA_length

/-- The final part of an accepted `load_twix_vd` scan (lines 267–286):
usable-length computation, the application-counter read, and the channel
loop. -/
def scanFinishVD (d : List Nat) (pos : Nat) (b : Builder) (loop_counters : List Nat)
    (num_samples num_channels fid_start p0 DMA_length : Nat) : Option ScanStep := do
  let np := pow2FloorLog2 (num_samples - fid_start)
  let b ← b.setNp np
  let (_, p) ← rdBytes 8 d p0
  let (rows, _) ← readChannelsVD d num_samples fid_start np num_channels p
  some (ScanStep.scan (b.addScan loop_counters rows) (pos + DMA_length))

/-- The accepted-scan tail of one `load_twix_vd` loop iteration (lines
256–289): field reads after the flag dispatch, ending in `scanFinishVD`. -/
def scanTailVD (d : List Nat) (pos : Nat) (b : Builder) (p0 DMA_length : Nat) :
    Option ScanStep := do
  let (hb, p) ← rdBytes 4 d p0
  let num_samples := leVal (hb.take 2)
  let num_channels := leVal (hb.drop 2)
  let b ← b.setNumChannels num_channels
  let (lcb, p) ← rdBytes 28 d p
  let loop_counters := leU16s lcb
  let (_, p) ← rdBytes 12 d p
  let (_, p) ← rdBytes 8 d p
  let (_, p) ← rdBytes 28 d p
  let (iceb, p) ← rdBytes 48 d p
  let (rpb, p) ← rdBytes 8 d p
  let fid_start_offset := leVal ((iceb.drop 8).take 2)
  let num_dummy_points := leVal (rpb.take 2)
  let fid_start := fid_start_offset + num_dummy_points
  if num_samples < fid_start then none
  else scanFinishVD d pos b loop_counters num_samples num_channels fid_start p DMA_length



/-- One iteration of the `load_twix_vd` scan loop (lines 216–289); same
flag semantics as `stepVB`, different field layout, and the sample window
starts at `fid_start = ice_program_params[4] + reserved_params[0]`. -/
def stepVD (d : List Nat) (pos : Nat) (b : Builder) : Option ScanStep := do
  let (tb, p) ← rdBytes 4 d pos
  let temp := leVal tb
  let DMA_length := temp % 2 ^ 26
  let (_, p) ← rdBytes 16 d p
  let (_, p) ← rdBytes 20 d p
  let (mb, p8) ← rdBytes 8 d p
  let mask := leVal mb
  if mask % 2 = 1 then
    some ScanStep.acqEnd
  else if flagBit mask 1 || flagBit mask 2 || flagBit mask 21 ||
          flagBit mask 25 || flagBit mask 5 then
    some (ScanStep.skip (pos + DMA_length))
  else
    scanTailVD d pos b p8 DMA_length

/-- The `while True` loop of `load_twix_vb`: iterate `stepVB` until the
end-of-acquisition record.  `fuel` bounds the number of iterations (the
Python loop has no structural bound; a zero DMA length loops forever). -/
def scanLoopVB (d : List Nat) : Nat → Nat → Builder → Option Builder
  | 0, _, _ => none
  | fuel + 1, pos, b =>
    match stepVB d pos b with
    | some ScanStep.acqEnd => some b
    | some (ScanStep.skip p') => scanLoopVB d fuel p' b
    | some (ScanStep.scan b' p') => scanLoopVB d fuel p' b'
    | none => none

/-- The `while True` loop of `load_twix_vd`. -/
def scanLoopVD (d : List Nat) : Nat → Nat → Builder → Option Builder
  | 0, _, _ => none
  | fuel + 1, pos, b =>
    match stepVD d pos b with
    | some ScanStep.acqEnd => some b
    | some (ScanStep.skip p') => scanLoopVD d fuel p' b
    | some (ScanStep.scan b' p') => scanLoopVD d fuel p' b'
    | none => none

/-! ## The anonymization file path (lines 365–400) -/

/-- The `windows-1252` code points of the bytes `0x80`–`0x9F` (elsewhere the
code page coincides with Latin-1); `none` marks the five undefined bytes,
which raise `UnicodeDecodeError`. -/
def cp1252High : Nat → Option Nat
  | 0x80 => some 0x20AC
  | 0x82 => some 0x201A
  | 0x83 => some 0x0192
  | 0x84 => some 0x201E
  | 0x85 => some 0x2026
  | 0x86 => some 0x2020
  | 0x87 => some 0x2021
  | 0x88 => some 0x02C6
  | 0x89 => some 0x2030
  | 0x8A => some 0x0160
  | 0x8B => some 0x2039
  | 0x8C => some 0x0152
  | 0x8E => some 0x017D
  | 0x91 => some 0x2018
  | 0x92 => some 0x2019
  | 0x93 => some 0x201C
  | 0x94 => some 0x201D
  | 0x95 => some 0x2022
  | 0x96 => some 0x2013
  | 0x97 => some 0x2014
  | 0x98 => some 0x02DC
  | 0x99 => some 0x2122
  | 0x9A => some 0x0161
  | 0x9B => some 0x203A
  | 0x9C => some 0x0153
  | 0x9E => some 0x017E
  | 0x9F => some 0x0178
  | _ => none

/-- Decode one byte with the `windows-1252` codec. -/
def decodeByte1252 (b : Nat) : Option Char :=
  if 0x80 ≤ b ∧ b ≤ 0x9F then (cp1252High b).map Char.ofNat
  else if b < 256 then some (Char.ofNat b) else none

/-- `bytes.decode('windows-1252')`. -/
def decode1252 (bs : List Nat) : Option (List Char) :=
  bs.mapM decodeByte1252

/-- Encode one character with the `windows-1252` codec (inverse of
`decodeByte1252`; unencodable characters raise `UnicodeEncodeError`). -/
def encodeChar1252 (c : Char) : Option Nat :=
  let n := c.toNat
  if n < 0x80 then some n
  else if 0xA0 ≤ n ∧ n < 256 then some n
  else match n with
    | 0x20AC => some 0x80
    | 0x201A => some 0x82
    | 0x0192 => some 0x83
    | 0x201E => some 0x84
    | 0x2026 => some 0x85
    | 0x2020 => some 0x86
    | 0x2021 => some 0x87
    | 0x02C6 => some 0x88
    | 0x2030 => some 0x89
    | 0x0160 => some 0x8A
    | 0x2039 => some 0x8B
    | 0x0152 => some 0x8C
    | 0x017D => some 0x8E
    | 0x2018 => some 0x91
    | 0x2019 => some 0x92
    | 0x201C => some 0x93
    | 0x201D => some 0x94
    | 0x2022 => some 0x95
    | 0x2013 => some 0x96
    | 0x2014 => some 0x97
    | 0x02DC => some 0x98
    | 0x2122 => some 0x99
    | 0x0161 => some 0x9A
    | 0x203A => some 0x9B
    | 0x0153 => some 0x9C
    | 0x017E => some 0x9E
    | 0x0178 => some 0x9F
    | _ => none

/-- `str.encode('windows-1252')`. -/
def encode1252 (cs : List Char) : Option (List Nat) :=
  cs.mapM encodeChar1252

/-- `anonymize_twix_vb` (lines 369–384) over the raw input bytes: the bytes
written to the output file, or `none` when an exception escapes. -/
def anonymize_twix_vb (input : List Nat) : Option (List Nat) := do
  let (hsb, p) ← rdBytes 4 input 0
  let header_size := leVal hsb
  let header := (input.drop p).take (header_size - 4)
  let body := input.drop (p + header.length)
  let header_string ← decode1252 (header.take (header.length - 24))
  let anonymized_header ← anonymize_twix_header header_string
  let enc ← encode1252 anonymized_header
  some (le4 header_size ++ enc ++ header.drop (header.length - 24) ++ body)

/-- `anonymize_twix_vd` (lines 365–366): the body is `pass`, so nothing is
written to the output file that `anonymize_twix` has already opened — the
call succeeds and the output is empty. -/
def anonymize_twix_vd (_input : List Nat) : Option (List Nat) :=
  some []

/-- `anonymize_twix` (lines 387–400) over the input-file bytes: the bytes
of the produced output file, `none` when an exception escapes. -/
def anonymize_twix (input : List Nat) : Option (List Nat) := do
  let (fub, _) ← rdBytes 8 input 0
  let first_uint := leVal (fub.take 4)
  let second_uint := leVal (fub.drop 4)
  if first_uint = 0 ∧ second_uint ≤ 64 then anonymize_twix_vd input
  else anonymize_twix_vb input

/-! ## Models of claim-side readings

These two definitions are not translations of the source: they formalise
wordings of the specification claims, to be compared against the source
translations above. -/

/-- Modelled from the claim (C8): for each channel the decoder "first skips
a fixed 124-byte repeated per-channel sub-header and then reads
`sample_count` interleaved (real, imaginary) 32-bit float pairs,
conjugating each pair". -/
def readChannelVB_claimed (d : List Nat) (pos ns : Nat) : Option (List Cplx × Nat) := do
  let (_, p) ← rdBytes 124 d pos
  let (db, p) ← rdBytes (ns * 4 * 2) d p
  some (toPairsConj (f32words db), p)

/-- Modelled from the claim (C5): "the five identified PHI spans" of a
header — the patient-identifier and birth-date field value spans, the
patient-sex digit spans (canonical field and every duplicate `Sex`
occurrence), every occurrence of the patient name, and every quoted string
containing the exam date.  (For the identifier and birth date the claim
identifies the declared field; the name, sex and exam-date entries are
multi-occurrence in the claim's own wording.) -/
def claimedPhiSpans (s : List Char) : Option (List (Nat × Nat)) := do
  let (i1, l1) ← reSearch anonPatientIDPat s
  let (i2, l2) ← reSearch anonBirthDayPat s
  let (i3, l3) ← reSearch anonNamePat s
  let nm := reEscape (groupText s i3 l3 2)
  let npat ← compileLits nm
  let (i4, l4) ← reSearch patientSexPat s
  let (i5, l5) ← reSearch frameOfReferencePat s
  let fr := groupText s i5 l5 2
  let edt ← (splitOn '.' fr).get? 10
  let dpat ← mkDatePat ((edt.drop 2).take 6)
  some ([groupSpan i1 l1 2, groupSpan i2 l2 2, groupSpan i4 l4 2] ++
        reSubSpans [npat] (fun _ _ => []) s ++
        reSubSpans sexDupPat (fun _ _ => []) s ++
        reSubSpans dpat (fun _ _ => []) s)

/-! ## Concrete inputs used by witnesses and counterexamples -/

/-- A well-formed header: every pass of the anonymizer succeeds, the birth
date is the historical 8-digit form, the sex field is a single digit. -/
def hGood : List Char :=
  ("<ParamString.\"PatientID\">  \x7b \"AB12\"  \x7d\n" ++
   "<ParamString.\"PatientBirthDay\">  \x7b \"19800101\"  \x7d\n" ++
   "<ParamString.\"PatientName\">  \x7b \"DOE\"  \x7d\n" ++
   "<ParamLong.\"PatientSex\">  \x7b 1  \x7d\n" ++
   "<ParamString.\"FrameOfReference\">  \x7b \"1.2.3.4.5.6.7.8.9.0.20240102030405.0\"  \x7d\n").toList

/-- `hGood` with a birth date of only 6 digits: the replacement
`"19700101"` is then 2 characters longer than the original value. -/
def hBadBday : List Char :=
  ("<ParamString.\"PatientID\">  \x7b \"AB12\"  \x7d\n" ++
   "<ParamString.\"PatientBirthDay\">  \x7b \"800101\"  \x7d\n" ++
   "<ParamString.\"PatientName\">  \x7b \"DOE\"  \x7d\n" ++
   "<ParamLong.\"PatientSex\">  \x7b 1  \x7d\n" ++
   "<ParamString.\"FrameOfReference\">  \x7b \"1.2.3.4.5.6.7.8.9.0.20240102030405.0\"  \x7d\n").toList

/-- `hGood` with an unrelated parameter whose value happens to equal the
patient birth date. -/
def hC5 : List Char :=
  hGood ++ "<ParamString.\"Unrelated\">  \x7b \"19800101\"  \x7d\n".toList

/-- `hGood` with a second, identical PatientID field: the locating pattern
matches twice. -/
def hDup : List Char :=
  hGood ++ "<ParamString.\"PatientID\">  \x7b \"AB12\"  \x7d\n".toList

/-- A header containing every field `parse_twix_header` requires, with a
regex metacharacter (`.`) in the patient name. -/
def hParse : List Char :=
  ("<ParamString.\"tProtocolName\">  \x7b \"svs_se\"  \x7d\n" ++
   "<ParamString.\"PatientID\">  \x7b \"AB12\"  \x7d\n" ++
   "<ParamString.\"PatientName\">  \x7b \"J.DOE\"  \x7d\n" ++
   "<ParamString.\"PatientBirthDay\">  \x7b \"19800101\"  \x7d\n" ++
   "<ParamLong.\"Frequency\">  \x7b 123250000  \x7d\n" ++
   "<ParamLong.\"DwellTimeSig\">  \x7b 2500  \x7d\n").toList

/-- `hParse` with a name free of regex metacharacters. -/
def hPlain : List Char :=
  ("<ParamString.\"tProtocolName\">  \x7b \"svs_se\"  \x7d\n" ++
   "<ParamString.\"PatientID\">  \x7b \"AB12\"  \x7d\n" ++
   "<ParamString.\"PatientName\">  \x7b \"DOE\"  \x7d\n" ++
   "<ParamString.\"PatientBirthDay\">  \x7b \"19800101\"  \x7d\n" ++
   "<ParamLong.\"Frequency\">  \x7b 123250000  \x7d\n" ++
   "<ParamLong.\"DwellTimeSig\">  \x7b 2500  \x7d\n").toList

/-- Wrap a header text as a complete VB container: length word, text,
24 opaque bytes, empty binary body. -/
def mkVbFile (h : List Char) : List Nat :=
  le4 (4 + h.length + 24) ++ h.map Char.toNat ++ List.replicate 24 0

/-- A VB scan record with the end-of-acquisition flag set. -/
def recEnd : List Nat :=
  le4 5 ++ List.replicate 16 0 ++ (1 :: List.replicate 7 0)

/-- A VB scan record with only the phase-correction flag (bit 21) set and
DMA length 99. -/
def recSkip : List Nat :=
  le4 99 ++ List.replicate 16 0 ++ (le4 (2 ^ 21) ++ le4 0)

/-- A VD scan record with the end-of-acquisition flag set. -/
def recEndVD : List Nat :=
  le4 5 ++ List.replicate 36 0 ++ (1 :: List.replicate 7 0)

/-- A VD scan record with only the noise-adjustment flag (bit 25) set and
DMA length 77. -/
def recSkipVD : List Nat :=
  le4 77 ++ List.replicate 36 0 ++ (le4 (2 ^ 25) ++ le4 0)

/-- An accepted VB data record: 8 samples, 1 channel, loop counter
`(1,0,…,0)`, 2 dummy points, all-zero sample bytes, DMA length 316. -/
def recScanVB : List Nat :=
  le4 316 ++ List.replicate 16 0 ++ List.replicate 8 0 ++
  [8, 0, 1, 0] ++ (1 :: 0 :: List.replicate 26 0) ++ List.replicate 12 0 ++
  List.replicate 8 0 ++ List.replicate 8 0 ++ (2 :: 0 :: List.replicate 6 0) ++
  List.replicate 28 0 ++ List.replicate 68 0

/-- An accepted VD data record: 8 samples, 1 channel, `fid_start_offset`
1 (`ice_program_params[4]`), 1 dummy point (`reserved_params[0]`), all-zero
sample bytes, DMA length 400. -/
def recScanVD : List Nat :=
  le4 400 ++ List.replicate 16 0 ++ List.replicate 20 0 ++ List.replicate 8 0 ++
  [8, 0, 1, 0] ++ List.replicate 28 0 ++ List.replicate 12 0 ++
  List.replicate 8 0 ++ List.replicate 28 0 ++
  (List.replicate 8 0 ++ (1 :: 0 :: List.replicate 38 0)) ++
  (1 :: 0 :: List.replicate 6 0) ++ List.replicate 8 0 ++
  (List.replicate 32 0 ++ List.replicate 64 0)

/-- The builder state after `stepVB recScanVB 0 Builder.init`. -/
def bC2 : Builder :=
  { header_params := none, np := some 4, num_channels := some 1,
    data := [[List.replicate 4 ((0 : Nat), 2147483648)]],
    loop_counters := [[1, 0, 0, 0, 0, 0, 0, 0, 0, 0, 0, 0, 0, 0]] }

/-- The builder state after `stepVD recScanVD 0 Builder.init`. -/
def bC2vd : Builder :=
  { header_params := none, np := some 4, num_channels := some 1,
    data := [[List.replicate 4 ((0 : Nat), 2147483648)]],
    loop_counters := [List.replicate 14 0] }

/-- 132 distinct bytes: one VB channel block for 1 sample. -/
def dC8 : List Nat := List.range 132

/-- A builder with two accumulated scans, used by the C3 and C7 witnesses. -/
def bC3 : Builder :=
  { header_params := none, np := some 2, num_channels := some 1,
    data := [[[(1, 2), (3, 4)]], [[(5, 6), (7, 8)]]],
    loop_counters := [[0, 0, 0, 0, 0, 0, 0, 0, 0, 0, 0, 0, 0, 0],
                      [0, 2, 0, 0, 0, 0, 0, 0, 0, 0, 0, 0, 0, 0]] }

/-- The raw text captured by the PatientName pattern's second group: the
name exactly as it appears in the header, before `re.escape` (line 73's
`.group(2)`). -/
def nameFieldText (s : List Char) : Option (List Char) :=
  (reSearch parseNamePat s).map (fun r => groupText s r.1 r.2 2)

/-- A concrete parsed header for the metadata-propagation witness. -/
def rMeta : ParsedHeader :=
  { protocol_name := "p".toList, patient_name := "n".toList, patient_id := "i".toList,
    patient_birthdate := "b".toList, dt_raw := 1, f0_raw := 2 }

/-- `bC3` with header parameters attached, so that `build_mrsdata`
succeeds. -/
def bMeta : Builder :=
  { bC3 with header_params := some rMeta }

/-- Elements that consume exactly one character per occurrence (an atom)
or at least one (a greedy `+`); `*` may consume nothing. -/
def consumesOne : RElem → Bool
  | RElem.star _ => false
  | _ => true

/-! ## Side conditions and per-pass spans for the anonymizer

The checkers below express the well-formedness conditions under which the
anonymizer is length-preserving (the amended claims C1 and C5); the span
accessors record, for each pass, the spans its substitution rewrites, in
the coordinates of that pass's input text. -/

/-- The PatientID value contains no regex-special characters (it is used
verbatim as a pattern, so a special character would change both what is
matched and the replacement length). -/
def anonIdOk (s : List Char) : Bool :=
  match reSearch anonPatientIDPat s with
  | some (i, lens) => (groupText s i lens 2).all (fun c => !isSpecialChar c)
  | none => true

/-- The PatientBirthDay value contains no regex-special characters and is
exactly 10 characters (the quoted 8-digit form that the fixed replacement
`"19700101"` has). -/
def anonBdayOk (s : List Char) : Bool :=
  match reSearch anonBirthDayPat s with
  | some (i, lens) =>
      (groupText s i lens 2).all (fun c => !isSpecialChar c) &&
      (groupText s i lens 2).length == 10
  | none => true

/-- The PatientSex field holds a single digit (the splice writes exactly
one `0` over the digit group). -/
def anonSexOk (s : List Char) : Bool :=
  match reSearch patientSexPat s with
  | some (_, lens) => lens.getD 1 0 == 1
  | none => true

/-- All side conditions along the pass chain. -/
def anonCondsOk (s : List Char) : Bool :=
  anonIdOk s &&
  match anonIdStep s with
  | none => true
  | some s1 =>
    anonBdayOk s1 &&
    match anonBdayStep s1 with
    | none => true
    | some s2 =>
      match anonNameStep s2 with
      | none => true
      | some s3 => anonSexOk s3

/-- `anonCondsOk` lifted to the raw container bytes of variant A. -/
def vbCondsOk (input : List Nat) : Bool :=
  match decode1252 (((input.drop 4).take (leValAt input 0 4 - 4)).take
      (((input.drop 4).take (leValAt input 0 4 - 4)).length - 24)) with
  | none => true
  | some hdr => anonCondsOk hdr

/-- The spans replaced by the PatientID pass. -/
def anonIdSpans (s : List Char) : Option (List (Nat × Nat)) := do
  let (i, lens) ← reSearch anonPatientIDPat s
  let pid := groupText s i lens 2
  let pat ← compileLits pid
  some (reSubSpans [pat]
    (fun _ _ => '"' :: (List.replicate (pid.length - 2) 'x' ++ ['"'])) s)

/-- The spans replaced by the birth-date pass. -/
def anonBdaySpans (s : List Char) : Option (List (Nat × Nat)) := do
  let (i, lens) ← reSearch anonBirthDayPat s
  let bd := groupText s i lens 2
  let pat ← compileLits bd
  some (reSubSpans [pat] (fun _ _ => "\"19700101\"".toList) s)

/-- The spans replaced by the name pass. -/
def anonNameSpans (s : List Char) : Option (List (Nat × Nat)) := do
  let (i, lens) ← reSearch anonNamePat s
  let nm := reEscape (groupText s i lens 2)
  let pat ← compileLits nm
  some (reSubSpans [pat] (fun m _ => reSub notQuotePat (fun _ _ => ['x']) m) s)

/-- The span spliced by the sex pass. -/
def anonSexSpans (s : List Char) : Option (List (Nat × Nat)) := do
  let (i, lens) ← reSearch patientSexPat s
  some [groupSpan i lens 2]

/-- The spans replaced by the duplicated-sex pass. -/
def anonSexDupSpans (s : List Char) : List (Nat × Nat) :=
  reSubSpans sexDupPat (fun _ gs => gs.getD 0 [] ++ '0' :: gs.getD 2 []) s

/-- The spans replaced by the exam-date pass. -/
def anonDateSpans (s : List Char) : Option (List (Nat × Nat)) := do
  let (i, lens) ← reSearch frameOfReferencePat s
  let frameOfReference := groupText s i lens 2
  let examDateTime ← (splitOn '.' frameOfReference).get? 10
  let examDate := (examDateTime.drop 2).take 6
  let pat ← mkDatePat examDate
  some (reSubSpans pat (fun m _ => reSub wordPat (fun _ _ => ['x']) m) s)

/-- All spans rewritten by the six passes, each in the coordinates of that
pass's input text (under length preservation these coordinates all refer
to positions of the original header). -/
def anonAllSpans (s : List Char) : Option (List (Nat × Nat)) := do
  let sps1 ← anonIdSpans s
  let s1 ← anonIdStep s
  let sps2 ← anonBdaySpans s1
  let s2 ← anonBdayStep s1
  let sps3 ← anonNameSpans s2
  let s3 ← anonNameStep s2
  let sps4 ← anonSexSpans s3
  let s4 ← anonSexStep s3
  let sps5 := anonSexDupSpans s4
  let s5 := anonSexDupStep s4
  let sps6 ← anonDateSpans s5
  some (sps1 ++ sps2 ++ sps3 ++ sps4 ++ sps5 ++ sps6)

/-! ## Helper lemmas -/

/-- `set_np` returns a builder whose `np` is the requested value and whose
other fields are untouched. -/
theorem setNp_inv {b b' : Builder} {v : Nat} (h : b.setNp v = some b') :
    b'.np = some v ∧ b'.num_channels = b.num_channels ∧ b'.data = b.data ∧
      b'.loop_counters = b.loop_counters ∧ b'.header_params = b.header_params := by
  unfold Builder.setNp at h
  split at h
  · cases h; simp
  · split at h
    · cases h; simp_all
    · cases h

/-- `set_num_channels` returns a builder whose `num_channels` is the
requested value and whose other fields are untouched. -/
theorem setNumChannels_inv {b b' : Builder} {v : Nat} (h : b.setNumChannels v = some b') :
    b'.num_channels = some v ∧ b'.np = b.np ∧ b'.data = b.data ∧
      b'.loop_counters = b.loop_counters ∧ b'.header_params = b.header_params := by
  unfold Builder.setNumChannels at h
  split at h
  · cases h; simp
  · split at h
    · cases h; simp_all
    · cases h

/-! ## Claim C9 -/

/-- Claim C9 counterexample: on the 8-byte all-zero input — whose two
leading 32-bit words select the indexed (VD) layout — `anonymize_twix`
does **not** fail: it succeeds and produces an (empty) output file. -/
theorem claim_C9_counterexample :
    leValAt (List.replicate 8 0) 0 4 = 0 ∧
    leValAt (List.replicate 8 0) 4 4 ≤ 64 ∧
    anonymize_twix (List.replicate 8 0) = some [] := by
  refine ⟨by decide, by decide, by decide⟩

/-- Claim C9 (amended): anonymizing a container whose two leading 32-bit
words select the indexed (VD) layout does not raise an error:
`anonymize_twix_vd` is a no-op `pass`, so the call silently succeeds and
the already-opened output file is left empty. -/
theorem claim_C9_amended (input : List Nat)
    (hlen : 8 ≤ input.length)
    (h0 : leValAt input 0 4 = 0)
    (h64 : leValAt input 4 4 ≤ 64) :
    anonymize_twix input = some [] := by
  unfold anonymize_twix rdBytes
  rw [if_pos (by omega : 0 + 8 ≤ input.length)]
  simp only [Option.bind_eq_bind, Option.some_bind]
  rw [if_pos]
  · rfl
  · constructor
    · simpa [leValAt, List.take_take] using h0
    · have e : List.drop 4 (List.take 8 input) = List.take 4 (List.drop 4 input) := by
        rw [List.drop_take]
      simpa [leValAt, e] using h64

/-- Claim C9 witness for the amended theorem. -/
theorem claim_C9_witness : anonymize_twix (List.replicate 8 0) = some [] :=
  claim_C9_amended (List.replicate 8 0) (by decide) (by decide) (by decide)

/-! ## Claim C4 -/

/-- VB: flag bit 0 set means the step reports end of acquisition. -/
theorem stepVB_acqEnd (d : List Nat) (pos : Nat) (b : Builder)
    (hlen : pos + 28 ≤ d.length) (hbit : leValAt d (pos + 20) 8 % 2 = 1) :
    stepVB d pos b = some ScanStep.acqEnd := by
  unfold stepVB rdBytes
  rw [if_pos (by omega : pos + 4 ≤ d.length)]
  simp only [Option.bind_eq_bind, Option.some_bind]
  rw [if_pos (by omega : pos + 4 + 16 ≤ d.length)]
  simp only [Option.bind_eq_bind, Option.some_bind]
  rw [if_pos (by omega : pos + 4 + 16 + 8 ≤ d.length)]
  simp only [Option.bind_eq_bind, Option.some_bind]
  rw [if_pos]
  rw [show pos + 4 + 16 = pos + 20 from by omega]
  exact hbit

/-- VB: bit 0 clear and one of bits 1, 2, 5, 21, 25 set means the step
skips to the record start plus the low 26 bits of the leading word. -/
theorem stepVB_skip (d : List Nat) (pos : Nat) (b : Builder)
    (hlen : pos + 28 ≤ d.length) (hbit : leValAt d (pos + 20) 8 % 2 = 0)
    (hflag : flagBit (leValAt d (pos + 20) 8) 1 = true ∨
             flagBit (leValAt d (pos + 20) 8) 2 = true ∨
             flagBit (leValAt d (pos + 20) 8) 5 = true ∨
             flagBit (leValAt d (pos + 20) 8) 21 = true ∨
             flagBit (leValAt d (pos + 20) 8) 25 = true) :
    stepVB d pos b = some (ScanStep.skip (pos + leValAt d pos 4 % 2 ^ 26)) := by
  unfold stepVB rdBytes
  rw [if_pos (by omega : pos + 4 ≤ d.length)]
  simp only [Option.bind_eq_bind, Option.some_bind]
  rw [if_pos (by omega : pos + 4 + 16 ≤ d.length)]
  simp only [Option.bind_eq_bind, Option.some_bind]
  rw [if_pos (by omega : pos + 4 + 16 + 8 ≤ d.length)]
  simp only [Option.bind_eq_bind, Option.some_bind]
  rw [if_neg, if_pos]
  · rfl
  · have e : pos + 4 + 16 = pos + 20 := by omega
    rw [e]
    simp only [leValAt] at hflag
    rcases hflag with h | h | h | h | h <;> simp [h]
  · have e : pos + 4 + 16 = pos + 20 := by omega
    rw [e]
    simp only [leValAt] at hbit
    omega

/-- VD: flag bit 0 set means the step reports end of acquisition. -/
theorem stepVD_acqEnd (d : List Nat) (pos : Nat) (b : Builder)
    (hlen : pos + 48 ≤ d.length) (hbit : leValAt d (pos + 40) 8 % 2 = 1) :
    stepVD d pos b = some ScanStep.acqEnd := by
  unfold stepVD rdBytes
  rw [if_pos (by omega : pos + 4 ≤ d.length)]
  simp only [Option.bind_eq_bind, Option.some_bind]
  rw [if_pos (by omega : pos + 4 + 16 ≤ d.length)]
  simp only [Option.bind_eq_bind, Option.some_bind]
  rw [if_pos (by omega : pos + 4 + 16 + 20 ≤ d.length)]
  simp only [Option.bind_eq_bind, Option.some_bind]
  rw [if_pos (by omega : pos + 4 + 16 + 20 + 8 ≤ d.length)]
  simp only [Option.bind_eq_bind, Option.some_bind]
  rw [if_pos]
  rw [show pos + 4 + 16 + 20 = pos + 40 from by omega]
  exact hbit

/-- VD: bit 0 clear and one of bits 1, 2, 5, 21, 25 set means the step
skips to the record start plus the low 26 bits of the leading word. -/
theorem stepVD_skip (d : List Nat) (pos : Nat) (b : Builder)
    (hlen : pos + 48 ≤ d.length) (hbit : leValAt d (pos + 40) 8 % 2 = 0)
    (hflag : flagBit (leValAt d (pos + 40) 8) 1 = true ∨
             flagBit (leValAt d (pos + 40) 8) 2 = true ∨
             flagBit (leValAt d (pos + 40) 8) 5 = true ∨
             flagBit (leValAt d (pos + 40) 8) 21 = true ∨
             flagBit (leValAt d (pos + 40) 8) 25 = true) :
    stepVD d pos b = some (ScanStep.skip (pos + leValAt d pos 4 % 2 ^ 26)) := by
  unfold stepVD rdBytes
  rw [if_pos (by omega : pos + 4 ≤ d.length)]
  simp only [Option.bind_eq_bind, Option.some_bind]
  rw [if_pos (by omega : pos + 4 + 16 ≤ d.length)]
  simp only [Option.bind_eq_bind, Option.some_bind]
  rw [if_pos (by omega : pos + 4 + 16 + 20 ≤ d.length)]
  simp only [Option.bind_eq_bind, Option.some_bind]
  rw [if_pos (by omega : pos + 4 + 16 + 20 + 8 ≤ d.length)]
  simp only [Option.bind_eq_bind, Option.some_bind]
  rw [if_neg, if_pos]
  · rfl
  · have e : pos + 4 + 16 + 20 = pos + 40 := by omega
    rw [e]
    simp only [leValAt] at hflag
    rcases hflag with h | h | h | h | h <;> simp [h]
  · have e : pos + 4 + 16 + 20 = pos + 40 := by omega
    rw [e]
    simp only [leValAt] at hbit
    omega

/-- Claim C4: in both variants, flag bit 0 of the 64-bit flag word
terminates decoding (the loop returns the accumulated builder), and
otherwise any of flag bits 1 (real-time feedback), 2 (reference feedback),
5 (synchronization), 21 (phase-correction), 25 (noise-adjustment) makes
the record contribute no scan: the step repositions the stream to the
record start plus the DMA length, the low 26 bits of the record's leading
32-bit word. -/
theorem claim_C4 :
    (∀ d pos b, pos + 28 ≤ d.length → leValAt d (pos + 20) 8 % 2 = 1 →
       stepVB d pos b = some ScanStep.acqEnd ∧
       ∀ fuel, scanLoopVB d (fuel + 1) pos b = some b) ∧
    (∀ d pos b, pos + 28 ≤ d.length → leValAt d (pos + 20) 8 % 2 = 0 →
       (flagBit (leValAt d (pos + 20) 8) 1 = true ∨
        flagBit (leValAt d (pos + 20) 8) 2 = true ∨
        flagBit (leValAt d (pos + 20) 8) 5 = true ∨
        flagBit (leValAt d (pos + 20) 8) 21 = true ∨
        flagBit (leValAt d (pos + 20) 8) 25 = true) →
       stepVB d pos b = some (ScanStep.skip (pos + leValAt d pos 4 % 2 ^ 26))) ∧
    (∀ d pos b, pos + 48 ≤ d.length → leValAt d (pos + 40) 8 % 2 = 1 →
       stepVD d pos b = some ScanStep.acqEnd ∧
       ∀ fuel, scanLoopVD d (fuel + 1) pos b = some b) ∧
    (∀ d pos b, pos + 48 ≤ d.length → leValAt d (pos + 40) 8 % 2 = 0 →
       (flagBit (leValAt d (pos + 40) 8) 1 = true ∨
        flagBit (leValAt d (pos + 40) 8) 2 = true ∨
        flagBit (leValAt d (pos + 40) 8) 5 = true ∨
        flagBit (leValAt d (pos + 40) 8) 21 = true ∨
        flagBit (leValAt d (pos + 40) 8) 25 = true) →
       stepVD d pos b = some (ScanStep.skip (pos + leValAt d pos 4 % 2 ^ 26))) := by
  refine ⟨fun d pos b h1 h2 => ⟨stepVB_acqEnd d pos b h1 h2, fun fuel => ?_⟩,
          fun d pos b h1 h2 h3 => stepVB_skip d pos b h1 h2 h3,
          fun d pos b h1 h2 => ⟨stepVD_acqEnd d pos b h1 h2, fun fuel => ?_⟩,
          fun d pos b h1 h2 h3 => stepVD_skip d pos b h1 h2 h3⟩
  · unfold scanLoopVB
    rw [stepVB_acqEnd d pos b h1 h2]
  · unfold scanLoopVD
    rw [stepVD_acqEnd d pos b h1 h2]

/-- Claim C4 witness: the four branches at concrete records. -/
theorem claim_C4_witness :
    stepVB recEnd 0 Builder.init = some ScanStep.acqEnd ∧
    stepVB recSkip 0 Builder.init = some (ScanStep.skip (0 + leValAt recSkip 0 4 % 2 ^ 26)) ∧
    stepVD recEndVD 0 Builder.init = some ScanStep.acqEnd ∧
    stepVD recSkipVD 0 Builder.init = some (ScanStep.skip (0 + leValAt recSkipVD 0 4 % 2 ^ 26)) ∧
    scanLoopVB recEnd 1 0 Builder.init = some Builder.init :=
  ⟨(claim_C4.1 recEnd 0 Builder.init (by decide) (by decide)).1,
   claim_C4.2.1 recSkip 0 Builder.init (by decide) (by decide) (by decide),
   (claim_C4.2.2.1 recEndVD 0 Builder.init (by decide) (by decide)).1,
   claim_C4.2.2.2 recSkipVD 0 Builder.init (by decide) (by decide) (by decide),
   (claim_C4.1 recEnd 0 Builder.init (by decide) (by decide)).2 0⟩

/-! ## Claims C3 and C7: the tensor builder -/

/-- Scatter leaves any slice not addressed by one of the submitted tuples
at the zero default. -/
theorem scatter_not_mem (qs : List (List Nat × List (List Cplx)))
    (f : List Nat → Cplx) (v : List Nat)
    (h : ∀ q ∈ qs, q.1 ≠ v.take 14) :
    (qs.foldl (fun g q => scatterOne g q.1 q.2) f) v = f v := by
  induction qs generalizing f with
  | nil => rfl
  | cons q qs ih =>
    rw [List.foldl_cons, ih _ (fun r hr => h r (List.mem_cons_of_mem _ hr))]
    unfold scatterOne
    rw [if_neg]
    intro hv
    exact (h q (List.mem_cons_self _ _)) hv.symm

/-- Successful finalize: the inferred shape and the scatter of all
accumulated scans. -/
theorem buildTensor_eq_some (b : Builder) (nc np : Nat)
    (hne : b.loop_counters ≠ [])
    (h14 : b.loop_counters.all (fun u => u.length == 14) = true)
    (hnc : b.num_channels = some nc) (hnp : b.np = some np) :
    buildTensor b = some
      { shape := (List.range 14).map (fun i => 1 + maxIdx b.loop_counters i) ++ [nc, np]
        entry := (b.loop_counters.zip b.data).foldl (fun g q => scatterOne g q.1 q.2)
                   (fun _ => (0, 0)) } := by
  unfold buildTensor
  rw [List.isEmpty_eq_false.2 hne, h14]
  simp [hnc, hnp]

/-- Claim C3: for a non-empty accumulated scan set of 14-entry loop-index
tuples, with channel and sample counts set, the finalize step produces a
tensor whose extent in loop dimension `i` is `1 +` the maximum of the
`i`-th index over all submitted tuples, with the channel count and sample
count appended as the two trailing dimensions; every slice not addressed
by any submitted tuple is zero-valued; and squeezing afterwards removes
exactly the extent-one dimensions, preserving the order of the rest. -/
theorem claim_C3 (b : Builder) (nc np : Nat)
    (hne : b.loop_counters ≠ [])
    (h14 : ∀ t ∈ b.loop_counters, t.length = 14)
    (hnc : b.num_channels = some nc) (hnp : b.np = some np) :
    ∃ T, buildTensor b = some T ∧
      T.shape = (List.range 14).map (fun i => 1 + maxIdx b.loop_counters i) ++ [nc, np] ∧
      (∀ v : List Nat, v.take 14 ∉ b.loop_counters → T.entry v = (0, 0)) ∧
      (squeeze T).shape = T.shape.filter (fun e => e != 1) := by
  refine ⟨_, buildTensor_eq_some b nc np hne ?_ hnc hnp, rfl, ?_, rfl⟩
  · rw [List.all_eq_true]
    intro t ht
    exact beq_iff_eq.2 (h14 t ht)
  · intro v hv
    exact scatter_not_mem _ _ _ (fun q hq he => hv (he ▸ (List.of_mem_zip hq).1))

/-- Claim C3 witness: a two-scan builder; extents `3` in loop dimension 1,
`1` elsewhere; an unaddressed slice is zero; squeezing keeps `[3, 2]`. -/
theorem claim_C3_witness :
    (buildTensor bC3).map Tensor.shape =
      some [1, 3, 1, 1, 1, 1, 1, 1, 1, 1, 1, 1, 1, 1, 1, 2] ∧
    (buildTensor bC3).map (fun T => T.entry [0, 1, 0, 0, 0, 0, 0, 0, 0, 0, 0, 0, 0, 0, 0, 0]) =
      some (0, 0) ∧
    (buildTensor bC3).map (fun T => (squeeze T).shape) = some [3, 2] := by
  obtain ⟨T, hT, hs, hz, hsq⟩ := claim_C3 bC3 1 2 (by decide) (by decide) rfl rfl
  refine ⟨?_, ?_, ?_⟩
  · rw [hT, Option.map_some', hs]
    decide
  · rw [hT, Option.map_some', hz _ (by decide)]
  · rw [hT, Option.map_some', hsq, hs]
    decide

/-- Zipping two one-element extensions. -/
theorem zip_append_single (l : List (List Nat)) (dl : List (List (List Cplx)))
    (t : List Nat) (m : List (List Cplx)) (h : l.length = dl.length) :
    (l ++ [t]).zip (dl ++ [m]) = l.zip dl ++ [(t, m)] := by
  rw [List.zip_append h]
  rfl

/-- Adding the same tuple twice does not change the per-dimension maxima. -/
theorem maxIdx_append_same (l : List (List Nat)) (t : List Nat) (i : Nat) :
    maxIdx ((l ++ [t]) ++ [t]) i = maxIdx (l ++ [t]) i := by
  unfold maxIdx
  rw [List.map_append, List.foldl_append]
  simp [Nat.max_assoc, Nat.max_self]

/-- Scatter assignment is idempotent at the entry level. -/
theorem scatterOne_idem (f : List Nat → Cplx) (t : List Nat) (m : List (List Cplx))
    (v : List Nat) :
    scatterOne (scatterOne f t m) t m v = scatterOne f t m v := by
  by_cases h : v.take 14 = t
  · simp [scatterOne, h]
  · simp [scatterOne, h]

/-- Claim C7: on a well-formed scan set (14-entry tuples, channel and
sample counts set), submitting the same (loop-index tuple, channel matrix)
pair twice and finalizing yields a tensor identical (same shape, same
entries) to submitting it once; and at any index addressed by the tuple of
the last submission, the finalized tensor holds that submission's matrix
entry (last-write-wins). -/
theorem claim_C7 (b : Builder) (t : List Nat) (m : List (List Cplx)) (v : List Nat)
    (nc np : Nat)
    (hlen : b.loop_counters.length = b.data.length)
    (h14 : ∀ u ∈ b.loop_counters, u.length = 14) (ht : t.length = 14)
    (hnc : b.num_channels = some nc) (hnp : b.np = some np) :
    ((buildTensor ((b.addScan t m).addScan t m)).map Tensor.shape =
       (buildTensor (b.addScan t m)).map Tensor.shape) ∧
    ((buildTensor ((b.addScan t m).addScan t m)).map (fun T => T.entry v) =
       (buildTensor (b.addScan t m)).map (fun T => T.entry v)) ∧
    (v.take 14 = t →
       (buildTensor (b.addScan t m)).map (fun T => T.entry v) =
       (buildTensor (b.addScan t m)).map
         (fun _ => mEntry m (v.getD 14 0) (v.getD 15 0))) := by
  have hall2 : (b.addScan t m).loop_counters.all (fun u => u.length == 14) = true := by
    rw [List.all_eq_true]
    intro u hu
    rcases List.mem_append.1 (show u ∈ b.loop_counters ++ [t] from hu) with h | h
    · exact beq_iff_eq.2 (h14 u h)
    · rw [List.mem_singleton.1 h]
      exact beq_iff_eq.2 ht
  have hall1 : ((b.addScan t m).addScan t m).loop_counters.all
      (fun u => u.length == 14) = true := by
    rw [List.all_eq_true]
    intro u hu
    rcases List.mem_append.1 (show u ∈ (b.loop_counters ++ [t]) ++ [t] from hu) with h | h
    · exact (List.all_eq_true.1 hall2) u h
    · rw [List.mem_singleton.1 h]
      exact beq_iff_eq.2 ht
  have hne2 : (b.addScan t m).loop_counters ≠ [] := by
    show b.loop_counters ++ [t] ≠ []
    simp
  have hne1 : ((b.addScan t m).addScan t m).loop_counters ≠ [] := by
    show (b.loop_counters ++ [t]) ++ [t] ≠ []
    simp
  have h2 := buildTensor_eq_some (b.addScan t m) nc np hne2 hall2 hnc hnp
  have h1 := buildTensor_eq_some ((b.addScan t m).addScan t m) nc np hne1 hall1 hnc hnp
  have hzip2 : (b.addScan t m).loop_counters.zip (b.addScan t m).data =
      b.loop_counters.zip b.data ++ [(t, m)] :=
    zip_append_single _ _ _ _ hlen
  have hzip1 : ((b.addScan t m).addScan t m).loop_counters.zip
      ((b.addScan t m).addScan t m).data =
      (b.loop_counters.zip b.data ++ [(t, m)]) ++ [(t, m)] := by
    rw [show ((b.addScan t m).addScan t m).loop_counters.zip
          ((b.addScan t m).addScan t m).data =
        ((b.addScan t m).loop_counters ++ [t]).zip ((b.addScan t m).data ++ [m]) from rfl,
      zip_append_single _ _ _ _ (by simp [Builder.addScan, hlen]), hzip2]
  rw [h1, h2, Option.map_some', Option.map_some', Option.map_some', Option.map_some',
      Option.map_some']
  refine ⟨?_, ?_, ?_⟩
  · refine congrArg some ?_
    show (List.range 14).map
        (fun i => 1 + maxIdx ((b.addScan t m).addScan t m).loop_counters i) ++ [nc, np] =
      (List.range 14).map (fun i => 1 + maxIdx (b.addScan t m).loop_counters i) ++ [nc, np]
    congr 1
    exact List.map_congr_left fun i _ =>
      congrArg (1 + ·) (maxIdx_append_same b.loop_counters t i)
  · refine congrArg some ?_
    show (((b.addScan t m).addScan t m).loop_counters.zip
        ((b.addScan t m).addScan t m).data).foldl (fun g q => scatterOne g q.1 q.2)
        (fun _ => (0, 0)) v = _
    rw [hzip1, hzip2]
    simp only [List.foldl_append, List.foldl_cons, List.foldl_nil]
    exact scatterOne_idem _ t m v
  · intro hv
    refine congrArg some ?_
    show ((b.addScan t m).loop_counters.zip (b.addScan t m).data).foldl
        (fun g q => scatterOne g q.1 q.2) (fun _ => (0, 0)) v = _
    rw [hzip2, List.foldl_append]
    simp only [List.foldl_cons, List.foldl_nil]
    unfold scatterOne
    rw [if_pos hv]

/-- Claim C7 witness: duplicate submission of a concrete pair gives the
same shape and the same entry, and the last submission's matrix entry is
what the addressed index holds. -/
theorem claim_C7_witness :
    ((buildTensor ((bC3.addScan [0, 1, 0, 0, 0, 0, 0, 0, 0, 0, 0, 0, 0, 0] [[(9, 9), (8, 8)]]).addScan
        [0, 1, 0, 0, 0, 0, 0, 0, 0, 0, 0, 0, 0, 0] [[(9, 9), (8, 8)]])).map Tensor.shape =
      (buildTensor (bC3.addScan [0, 1, 0, 0, 0, 0, 0, 0, 0, 0, 0, 0, 0, 0] [[(9, 9), (8, 8)]])).map
        Tensor.shape) ∧
    ((buildTensor (bC3.addScan [0, 1, 0, 0, 0, 0, 0, 0, 0, 0, 0, 0, 0, 0] [[(9, 9), (8, 8)]])).map
      (fun T => T.entry [0, 1, 0, 0, 0, 0, 0, 0, 0, 0, 0, 0, 0, 0, 0, 1]) =
      (buildTensor (bC3.addScan [0, 1, 0, 0, 0, 0, 0, 0, 0, 0, 0, 0, 0, 0] [[(9, 9), (8, 8)]])).map
        (fun _ => mEntry [[(9, 9), (8, 8)]]
          ([0, 1, 0, 0, 0, 0, 0, 0, 0, 0, 0, 0, 0, 0, 0, 1].getD 14 0)
          ([0, 1, 0, 0, 0, 0, 0, 0, 0, 0, 0, 0, 0, 0, 0, 1].getD 15 0))) ∧
    mEntry [[(9, 9), (8, 8)]]
        ([0, 1, 0, 0, 0, 0, 0, 0, 0, 0, 0, 0, 0, 0, 0, 1].getD 14 0)
        ([0, 1, 0, 0, 0, 0, 0, 0, 0, 0, 0, 0, 0, 0, 0, 1].getD 15 0) = (8, 8) := by
  refine ⟨(claim_C7 bC3 _ _ [] 1 2 (by decide) (by decide) (by decide) rfl rfl).1, ?_, by decide⟩
  exact (claim_C7 bC3 [0, 1, 0, 0, 0, 0, 0, 0, 0, 0, 0, 0, 0, 0]
      [[(9, 9), (8, 8)]] [0, 1, 0, 0, 0, 0, 0, 0, 0, 0, 0, 0, 0, 0, 0, 1] 1 2
      (by decide) (by decide) (by decide) rfl rfl).2.2 (by decide)

/-! ## Claims C2 and C8: sample extraction -/

/-- Inversion of one VB channel read: the row is the conjugated float
pairs found at byte offset 4 of the channel block, sliced to
`[ndp, ndp + np)`, and the block occupies `4 + 8·ns + 124` bytes. -/
theorem readChannelVB_inv (d : List Nat) (pos ns ndp np : Nat) (row : List Cplx) (p' : Nat)
    (h : readChannelVB d pos ns ndp np = some (row, p')) :
    row = ((toPairsConj (f32words ((d.drop (pos + 4)).take (ns * 4 * 2)))).drop ndp).take np ∧
    p' = pos + 4 + ns * 4 * 2 + 124 := by
  unfold readChannelVB rdBytes at h
  split at h
  · simp only [Option.bind_eq_bind, Option.some_bind] at h
    split at h
    · simp only [Option.bind_eq_bind, Option.some_bind, Option.some.injEq, Prod.mk.injEq] at h
      exact ⟨h.1.symm, h.2.symm⟩
    · simp at h
  · simp at h

/-- Inversion of the VB channel loop: `k` rows, stride `128 + 8·ns` per
channel, row `i` read from byte offset `pos + i·(128 + 8·ns) + 4`. -/
theorem readChannelsVB_inv (d : List Nat) (ns ndp np : Nat) (k : Nat) :
    ∀ (pos : Nat) (rows : List (List Cplx)) (p2 : Nat),
      readChannelsVB d ns ndp np k pos = some (rows, p2) →
      rows.length = k ∧ p2 = pos + k * (128 + ns * 4 * 2) ∧
      ∀ i, i < k → rows.get? i = some
        (((toPairsConj (f32words ((d.drop (pos + i * (128 + ns * 4 * 2) + 4)).take
          (ns * 4 * 2)))).drop ndp).take np) := by
  induction k with
  | zero =>
    intro pos rows p2 h
    unfold readChannelsVB at h
    simp only [Option.some.injEq, Prod.mk.injEq] at h
    refine ⟨by rw [← h.1]; rfl, by omega, fun i hi => absurd hi (Nat.not_lt_zero i)⟩
  | succ k ih =>
    intro pos rows p2 h
    unfold readChannelsVB at h
    cases hc : readChannelVB d pos ns ndp np with
    | none => rw [hc] at h; simp at h
    | some rp =>
      obtain ⟨row, p⟩ := rp
      rw [hc] at h
      simp only [Option.bind_eq_bind, Option.some_bind] at h
      cases hr : readChannelsVB d ns ndp np k p with
      | none => rw [hr] at h; simp at h
      | some rp2 =>
        obtain ⟨rows', p2'⟩ := rp2
        rw [hr] at h
        simp only [Option.bind_eq_bind, Option.some_bind, Option.some.injEq,
          Prod.mk.injEq] at h
        obtain ⟨hrows, hp2⟩ := h
        obtain ⟨hrow, hnext⟩ := readChannelVB_inv d pos ns ndp np row p hc
        obtain ⟨hl, hp, hrest⟩ := ih p rows' p2' hr
        refine ⟨by rw [← hrows]; simp [hl], ?_, ?_⟩
        · rw [← hp2, hp, hnext, Nat.succ_mul]
          generalize k * (128 + ns * 4 * 2) = A
          omega
        · intro i hi
          rw [← hrows]
          cases i with
          | zero =>
            rw [show pos + 0 * (128 + ns * 4 * 2) + 4 = pos + 4 from by
              rw [Nat.zero_mul]]
            exact congrArg some hrow
          | succ j =>
            have hj : j < k := Nat.lt_of_succ_lt_succ hi
            have := hrest j hj
            rw [show List.get? (row :: rows') (j + 1) = rows'.get? j from rfl, this]
            rw [show pos + (j + 1) * (128 + ns * 4 * 2) + 4 =
                p + j * (128 + ns * 4 * 2) + 4 from by
              rw [hnext, Nat.succ_mul]
              generalize j * (128 + ns * 4 * 2) = A
              omega]

set_option maxHeartbeats 1600000 in
/-- Inversion of the accepted-scan tail of a VB record starting its
post-flag fields at `p0` (`= record start + 28`): the sample count is the
16-bit word at `p0`, the channel count at `p0 + 2`, the 14 loop counters at
`p0 + 4`, the dummy-point count at `p0 + 60`, and the channel data begins
at `p0 + 96`. -/
theorem scanTailVB_inv (d : List Nat) (pos : Nat) (b : Builder) (p0 DMA : Nat)
    (b' : Builder) (pos' : Nat)
    (h : scanTailVB d pos b p0 DMA = some (ScanStep.scan b' pos')) :
    ∃ bn bnp rows p2,
      b.setNumChannels (leValAt d (p0 + 2) 2) = some bn ∧
      leValAt d (p0 + 60) 2 ≤ leValAt d p0 2 ∧
      bn.setNp (pow2FloorLog2 (leValAt d p0 2 - leValAt d (p0 + 60) 2)) = some bnp ∧
      readChannelsVB d (leValAt d p0 2) (leValAt d (p0 + 60) 2)
        (pow2FloorLog2 (leValAt d p0 2 - leValAt d (p0 + 60) 2))
        (leValAt d (p0 + 2) 2) (p0 + 96) = some (rows, p2) ∧
      b' = bnp.addScan (leU16s ((d.drop (p0 + 4)).take 28)) rows ∧
      pos' = pos + DMA := by
  have ens : List.take 2 (List.take 4 (List.drop p0 d)) = List.take 2 (List.drop p0 d) := by
    rw [List.take_take]
    norm_num
  have enc : List.drop 2 (List.take 4 (List.drop p0 d)) =
      List.take 2 (List.drop (p0 + 2) d) := by
    rw [List.drop_take, List.drop_drop]
  unfold scanTailVB rdBytes at h
  split at h
  case isFalse =>
    simp only [Option.bind_eq_bind, Option.none_bind] at h
    exact Option.noConfusion h
  case isTrue h4 =>
  simp only [Option.bind_eq_bind, Option.some_bind] at h
  rw [ens, enc] at h
  cases hsnc : b.setNumChannels (leVal (List.take 2 (List.drop (p0 + 2) d))) with
  | none =>
    rw [hsnc] at h
    simp only [Option.bind_eq_bind, Option.none_bind] at h
    exact Option.noConfusion h
  | some bn =>
  rw [hsnc] at h
  simp only [Option.bind_eq_bind, Option.some_bind] at h
  split at h
  case isFalse =>
    simp only [Option.bind_eq_bind, Option.none_bind] at h
    exact Option.noConfusion h
  case isTrue h32 =>
  simp only [Option.bind_eq_bind, Option.some_bind] at h
  split at h
  case isFalse =>
    simp only [Option.bind_eq_bind, Option.none_bind] at h
    exact Option.noConfusion h
  case isTrue h44 =>
  simp only [Option.bind_eq_bind, Option.some_bind] at h
  split at h
  case isFalse =>
    simp only [Option.bind_eq_bind, Option.none_bind] at h
    exact Option.noConfusion h
  case isTrue h52 =>
  simp only [Option.bind_eq_bind, Option.some_bind] at h
  split at h
  case isFalse =>
    simp only [Option.bind_eq_bind, Option.none_bind] at h
    exact Option.noConfusion h
  case isTrue h60 =>
  simp only [Option.bind_eq_bind, Option.some_bind] at h
  split at h
  case isFalse =>
    simp only [Option.bind_eq_bind, Option.none_bind] at h
    exact Option.noConfusion h
  case isTrue h68 =>
  simp only [Option.bind_eq_bind, Option.some_bind] at h
  rw [show p0 + 4 + 28 + 12 + 8 + 8 = p0 + 60 from by omega] at h
  split at h
  case isTrue => exact Option.noConfusion h
  case isFalse hlt =>
  rw [show List.take 2 (List.take 8 (List.drop (p0 + 60) d)) =
      List.take 2 (List.drop (p0 + 60) d) from by rw [List.take_take]; norm_num] at h
  cases hsnp : bn.setNp (pow2FloorLog2 (leVal (List.take 2 (List.drop p0 d)) -
      leVal (List.take 2 (List.drop (p0 + 60) d)))) with
  | none =>
    rw [hsnp] at h
    simp only [Option.bind_eq_bind, Option.none_bind] at h
    exact Option.noConfusion h
  | some bnp =>
  rw [hsnp] at h
  simp only [Option.bind_eq_bind, Option.some_bind] at h
  split at h
  case isFalse =>
    simp only [Option.bind_eq_bind, Option.none_bind] at h
    exact Option.noConfusion h
  case isTrue h96 =>
  simp only [Option.bind_eq_bind, Option.some_bind] at h
  rw [show p0 + 60 + 8 + 28 = p0 + 96 from by omega] at h
  cases hrc : readChannelsVB d (leVal (List.take 2 (List.drop p0 d)))
      (leVal (List.take 2 (List.drop (p0 + 60) d)))
      (pow2FloorLog2 (leVal (List.take 2 (List.drop p0 d)) -
        leVal (List.take 2 (List.drop (p0 + 60) d))))
      (leVal (List.take 2 (List.drop (p0 + 2) d))) (p0 + 96) with
  | none =>
    rw [hrc] at h
    simp only [Option.bind_eq_bind, Option.none_bind] at h
    exact Option.noConfusion h
  | some rp =>
  obtain ⟨rows, p2⟩ := rp
  rw [hrc] at h
  simp only [Option.bind_eq_bind, Option.some_bind, Option.some.injEq] at h
  refine ⟨bn, bnp, rows, p2, hsnc, ?_, hsnp, hrc, ?_, ?_⟩
  · have hle := Nat.le_of_not_lt hlt
    rw [show List.take 2 (List.take 8 (List.drop (p0 + 60) d)) =
        List.take 2 (List.drop (p0 + 60) d) from by rw [List.take_take]; norm_num] at hle
    exact hle
  · cases h; rfl
  · cases h; rfl

/-- Inversion of a full VB step that accepted a scan: the tail ran from
offset `pos + 28` and the next position is the record start plus the low
26 bits of the leading word. -/
theorem stepVB_scan_inv (d : List Nat) (pos : Nat) (b b' : Builder) (pos' : Nat)
    (h : stepVB d pos b = some (ScanStep.scan b' pos')) :
    scanTailVB d pos b (pos + 28) (leValAt d pos 4 % 2 ^ 26) =
      some (ScanStep.scan b' pos') := by
  unfold stepVB rdBytes at h
  split at h
  case isFalse =>
    simp only [Option.bind_eq_bind, Option.none_bind] at h
    exact Option.noConfusion h
  case isTrue h4 =>
  simp only [Option.bind_eq_bind, Option.some_bind] at h
  split at h
  case isFalse =>
    simp only [Option.bind_eq_bind, Option.none_bind] at h
    exact Option.noConfusion h
  case isTrue h20 =>
  simp only [Option.bind_eq_bind, Option.some_bind] at h
  split at h
  case isFalse =>
    simp only [Option.bind_eq_bind, Option.none_bind] at h
    exact Option.noConfusion h
  case isTrue h28 =>
  simp only [Option.bind_eq_bind, Option.some_bind] at h
  split at h
  · exact ScanStep.noConfusion (Option.some.inj h)
  · split at h
    · exact ScanStep.noConfusion (Option.some.inj h)
    · rw [show pos + 4 + 16 + 8 = pos + 28 from by omega] at h
      exact h

/-- Inversion of one VD channel read: a 32-byte channel header, then the
conjugated float pairs sliced to `[fs, fs + np)`. -/
theorem readChannelVD_inv (d : List Nat) (pos ns fs np : Nat) (row : List Cplx) (p' : Nat)
    (h : readChannelVD d pos ns fs np = some (row, p')) :
    row = ((toPairsConj (f32words ((d.drop (pos + 32)).take (ns * 4 * 2)))).drop fs).take np ∧
    p' = pos + 32 + ns * 4 * 2 := by
  unfold readChannelVD rdBytes at h
  split at h
  · simp only [Option.bind_eq_bind, Option.some_bind] at h
    split at h
    · simp only [Option.bind_eq_bind, Option.some_bind, Option.some.injEq, Prod.mk.injEq] at h
      exact ⟨h.1.symm, h.2.symm⟩
    · simp at h
  · simp at h

/-- Inversion of the VD channel loop: `k` rows, stride `32 + 8·ns` per
channel, row `i` read from byte offset `pos + i·(32 + 8·ns) + 32`. -/
theorem readChannelsVD_inv (d : List Nat) (ns fs np : Nat) (k : Nat) :
    ∀ (pos : Nat) (rows : List (List Cplx)) (p2 : Nat),
      readChannelsVD d ns fs np k pos = some (rows, p2) →
      rows.length = k ∧ p2 = pos + k * (32 + ns * 4 * 2) ∧
      ∀ i, i < k → rows.get? i = some
        (((toPairsConj (f32words ((d.drop (pos + i * (32 + ns * 4 * 2) + 32)).take
          (ns * 4 * 2)))).drop fs).take np) := by
  induction k with
  | zero =>
    intro pos rows p2 h
    unfold readChannelsVD at h
    simp only [Option.some.injEq, Prod.mk.injEq] at h
    refine ⟨by rw [← h.1]; rfl, by omega, fun i hi => absurd hi (Nat.not_lt_zero i)⟩
  | succ k ih =>
    intro pos rows p2 h
    unfold readChannelsVD at h
    cases hc : readChannelVD d pos ns fs np with
    | none => rw [hc] at h; simp at h
    | some rp =>
      obtain ⟨row, p⟩ := rp
      rw [hc] at h
      simp only [Option.bind_eq_bind, Option.some_bind] at h
      cases hr : readChannelsVD d ns fs np k p with
      | none => rw [hr] at h; simp at h
      | some rp2 =>
        obtain ⟨rows', p2'⟩ := rp2
        rw [hr] at h
        simp only [Option.bind_eq_bind, Option.some_bind, Option.some.injEq,
          Prod.mk.injEq] at h
        obtain ⟨hrows, hp2⟩ := h
        obtain ⟨hrow, hnext⟩ := readChannelVD_inv d pos ns fs np row p hc
        obtain ⟨hl, hp, hrest⟩ := ih p rows' p2' hr
        refine ⟨by rw [← hrows]; simp [hl], ?_, ?_⟩
        · rw [← hp2, hp, hnext, Nat.succ_mul]
          generalize k * (32 + ns * 4 * 2) = A
          omega
        · intro i hi
          rw [← hrows]
          cases i with
          | zero =>
            rw [show pos + 0 * (32 + ns * 4 * 2) + 32 = pos + 32 from by
              rw [Nat.zero_mul]]
            exact congrArg some hrow
          | succ j =>
            have hj : j < k := Nat.lt_of_succ_lt_succ hi
            have := hrest j hj
            rw [show List.get? (row :: rows') (j + 1) = rows'.get? j from rfl, this]
            rw [show pos + (j + 1) * (32 + ns * 4 * 2) + 32 =
                p + j * (32 + ns * 4 * 2) + 32 from by
              rw [hnext, Nat.succ_mul]
              generalize j * (32 + ns * 4 * 2) = A
              omega]

/-- Inversion of the final part of an accepted VD scan. -/
theorem scanFinishVD_inv (d : List Nat) (pos : Nat) (b : Builder) (lcs : List Nat)
    (ns nc fs p0 DMA : Nat) (b' : Builder) (pos' : Nat)
    (h : scanFinishVD d pos b lcs ns nc fs p0 DMA = some (ScanStep.scan b' pos')) :
    ∃ bnp rows p2,
      b.setNp (pow2FloorLog2 (ns - fs)) = some bnp ∧
      readChannelsVD d ns fs (pow2FloorLog2 (ns - fs)) nc (p0 + 8) = some (rows, p2) ∧
      b' = bnp.addScan lcs rows ∧ pos' = pos + DMA := by
  unfold scanFinishVD rdBytes at h
  dsimp only at h
  cases hsnp : b.setNp (pow2FloorLog2 (ns - fs)) with
  | none =>
    rw [hsnp] at h
    dsimp only [Option.bind_eq_bind, Option.none_bind] at h
    exact Option.noConfusion h
  | some bnp =>
  rw [hsnp] at h
  dsimp only [Option.bind_eq_bind, Option.some_bind] at h
  split at h
  case isFalse =>
    dsimp only [Option.bind_eq_bind, Option.none_bind] at h
    exact Option.noConfusion h
  case isTrue h8 =>
  dsimp only [Option.bind_eq_bind, Option.some_bind] at h
  cases hrc : readChannelsVD d ns fs (pow2FloorLog2 (ns - fs)) nc (p0 + 8) with
  | none =>
    rw [hrc] at h
    dsimp only [Option.bind_eq_bind, Option.none_bind] at h
    exact Option.noConfusion h
  | some rp =>
  obtain ⟨rows, p2⟩ := rp
  rw [hrc] at h
  simp only [Option.bind_eq_bind, Option.some_bind, Option.some.injEq] at h
  exact ⟨bnp, rows, p2, rfl, rfl, by cases h; rfl, by cases h; rfl⟩

set_option maxHeartbeats 1600000 in
/-- Inversion of the accepted-scan tail of a VD record starting its
post-flag fields at `p0` (`= record start + 48`): the sample count is the
16-bit word at `p0`, the channel count at `p0 + 2`, the FID-start offset at
`p0 + 88` (`ice_program_params[4]`), the dummy-point count at `p0 + 128`
(`reserved_params[0]`), and the channel data begins at `p0 + 144`. -/
theorem scanTailVD_inv (d : List Nat) (pos : Nat) (b : Builder) (p0 DMA : Nat)
    (b' : Builder) (pos' : Nat)
    (h : scanTailVD d pos b p0 DMA = some (ScanStep.scan b' pos')) :
    ∃ bn bnp rows p2,
      b.setNumChannels (leValAt d (p0 + 2) 2) = some bn ∧
      leValAt d (p0 + 88) 2 + leValAt d (p0 + 128) 2 ≤ leValAt d p0 2 ∧
      bn.setNp (pow2FloorLog2 (leValAt d p0 2 -
        (leValAt d (p0 + 88) 2 + leValAt d (p0 + 128) 2))) = some bnp ∧
      readChannelsVD d (leValAt d p0 2)
        (leValAt d (p0 + 88) 2 + leValAt d (p0 + 128) 2)
        (pow2FloorLog2 (leValAt d p0 2 -
          (leValAt d (p0 + 88) 2 + leValAt d (p0 + 128) 2)))
        (leValAt d (p0 + 2) 2) (p0 + 144) = some (rows, p2) ∧
      b' = bnp.addScan (leU16s ((d.drop (p0 + 4)).take 28)) rows ∧
      pos' = pos + DMA := by
  have ens : List.take 2 (List.take 4 (List.drop p0 d)) = List.take 2 (List.drop p0 d) := by
    rw [List.take_take]
    norm_num
  have enc : List.drop 2 (List.take 4 (List.drop p0 d)) =
      List.take 2 (List.drop (p0 + 2) d) := by
    rw [List.drop_take, List.drop_drop]
  unfold scanTailVD rdBytes at h
  split at h
  case isFalse =>
    dsimp only [Option.bind_eq_bind, Option.none_bind] at h
    exact Option.noConfusion h
  case isTrue h4 =>
  dsimp only [Option.bind_eq_bind, Option.some_bind] at h
  rw [ens, enc] at h
  cases hsnc : b.setNumChannels (leVal (List.take 2 (List.drop (p0 + 2) d))) with
  | none =>
    rw [hsnc] at h
    dsimp only [Option.bind_eq_bind, Option.none_bind] at h
    exact Option.noConfusion h
  | some bn =>
  rw [hsnc] at h
  dsimp only [Option.bind_eq_bind, Option.some_bind] at h
  split at h
  case isFalse =>
    dsimp only [Option.bind_eq_bind, Option.none_bind] at h
    exact Option.noConfusion h
  case isTrue h32 =>
  dsimp only [Option.bind_eq_bind, Option.some_bind] at h
  split at h
  case isFalse =>
    dsimp only [Option.bind_eq_bind, Option.none_bind] at h
    exact Option.noConfusion h
  case isTrue h44 =>
  dsimp only [Option.bind_eq_bind, Option.some_bind] at h
  split at h
  case isFalse =>
    dsimp only [Option.bind_eq_bind, Option.none_bind] at h
    exact Option.noConfusion h
  case isTrue h52 =>
  dsimp only [Option.bind_eq_bind, Option.some_bind] at h
  split at h
  case isFalse =>
    dsimp only [Option.bind_eq_bind, Option.none_bind] at h
    exact Option.noConfusion h
  case isTrue h80 =>
  dsimp only [Option.bind_eq_bind, Option.some_bind] at h
  split at h
  case isFalse =>
    dsimp only [Option.bind_eq_bind, Option.none_bind] at h
    exact Option.noConfusion h
  case isTrue h128 =>
  dsimp only [Option.bind_eq_bind, Option.some_bind] at h
  split at h
  case isFalse =>
    dsimp only [Option.bind_eq_bind, Option.none_bind] at h
    exact Option.noConfusion h
  case isTrue h136 =>
  dsimp only [Option.bind_eq_bind, Option.some_bind] at h
  rw [show p0 + 4 + 28 + 12 + 8 + 28 = p0 + 80 from by omega] at h
  rw [show p0 + 80 + 48 = p0 + 128 from by omega] at h
  rw [show List.take 2 (List.drop 8 (List.take 48 (List.drop (p0 + 80) d))) =
      List.take 2 (List.drop (p0 + 88) d) from by
    rw [List.drop_take, List.drop_drop, List.take_take]
    norm_num] at h
  rw [show List.take 2 (List.take 8 (List.drop (p0 + 128) d)) =
      List.take 2 (List.drop (p0 + 128) d) from by rw [List.take_take]; norm_num] at h
  split at h
  case isTrue => exact Option.noConfusion h
  case isFalse hlt =>
  obtain ⟨bnp, rows, p2, hsnp, hrc, hb', hpos'⟩ :=
    scanFinishVD_inv d pos bn (leU16s (List.take 28 (List.drop (p0 + 4) d)))
      (leVal (List.take 2 (List.drop p0 d))) (leVal (List.take 2 (List.drop (p0 + 2) d)))
      (leVal (List.take 2 (List.drop (p0 + 88) d)) +
        leVal (List.take 2 (List.drop (p0 + 128) d))) (p0 + 128 + 8) DMA b' pos' h
  rw [show p0 + 128 + 8 + 8 = p0 + 144 from by omega] at hrc
  exact ⟨bn, bnp, rows, p2, hsnc, Nat.le_of_not_lt hlt, hsnp, hrc, hb', hpos'⟩

/-- Inversion of a full VD step that accepted a scan. -/
theorem stepVD_scan_inv (d : List Nat) (pos : Nat) (b b' : Builder) (pos' : Nat)
    (h : stepVD d pos b = some (ScanStep.scan b' pos')) :
    scanTailVD d pos b (pos + 48) (leValAt d pos 4 % 2 ^ 26) =
      some (ScanStep.scan b' pos') := by
  unfold stepVD rdBytes at h
  split at h
  case isFalse =>
    simp only [Option.bind_eq_bind, Option.none_bind] at h
    exact Option.noConfusion h
  case isTrue h4 =>
  simp only [Option.bind_eq_bind, Option.some_bind] at h
  split at h
  case isFalse =>
    simp only [Option.bind_eq_bind, Option.none_bind] at h
    exact Option.noConfusion h
  case isTrue h20 =>
  simp only [Option.bind_eq_bind, Option.some_bind] at h
  split at h
  case isFalse =>
    simp only [Option.bind_eq_bind, Option.none_bind] at h
    exact Option.noConfusion h
  case isTrue h40 =>
  simp only [Option.bind_eq_bind, Option.some_bind] at h
  split at h
  case isFalse =>
    simp only [Option.bind_eq_bind, Option.none_bind] at h
    exact Option.noConfusion h
  case isTrue h48 =>
  simp only [Option.bind_eq_bind, Option.some_bind] at h
  split at h
  · exact ScanStep.noConfusion (Option.some.inj h)
  · split at h
    · exact ScanStep.noConfusion (Option.some.inj h)
    · rw [show pos + 4 + 16 + 20 + 8 = pos + 48 from by omega] at h
      exact h

/-- The fuel-bounded logarithm agrees with `Nat.log2` when given enough
fuel. -/
theorem log2floorFuel_eq (fuel : Nat) :
    ∀ n, n ≤ fuel → log2floorFuel fuel n = Nat.log2 n := by
  induction fuel with
  | zero =>
    intro n hn
    rw [Nat.log2]
    have h0 : n = 0 := by omega
    subst h0
    rfl
  | succ fuel ih =>
    intro n hn
    rw [Nat.log2]
    unfold log2floorFuel
    by_cases h2 : 2 ≤ n
    · have hdiv : n / 2 < n := Nat.div_lt_self (by omega) (by omega)
      rw [if_neg (by omega : ¬ n < 2), if_pos h2, ih (n / 2) (by omega)]
    · rw [if_pos (by omega : n < 2), if_neg h2]

/-- `log2floor` is `Nat.log2`. -/
theorem log2floor_eq (n : Nat) : log2floor n = Nat.log2 n :=
  log2floorFuel_eq n n (Nat.le_refl n)

/-- The source's float formula `int(2 ** floor(log2(m)))` as a power of two
for positive `m`. -/
theorem pow2FloorLog2_pos (m : Nat) (hm : m ≠ 0) :
    pow2FloorLog2 m = 2 ^ Nat.log2 m := by
  unfold pow2FloorLog2
  rw [if_neg hm, log2floor_eq]

/-- `2 ^ ⌊log2 m⌋` is the largest power of two not exceeding `m`. -/
theorem pow2_log2_bounds (m : Nat) (hm : m ≠ 0) :
    2 ^ Nat.log2 m ≤ m ∧ m < 2 * 2 ^ Nat.log2 m := by
  constructor
  · rw [Nat.log2_eq_log_two]
    exact Nat.pow_log_le_self 2 hm
  · rw [Nat.log2_eq_log_two]
    have h := Nat.lt_pow_succ_log_self (by norm_num : (1 : Nat) < 2) m
    calc m < 2 ^ (Nat.log 2 m).succ := h
    _ = 2 * 2 ^ Nat.log 2 m := by rw [pow_succ, Nat.mul_comm]

/-- Claim C2: for every accepted data record with raw sample count `n` and
start offset `s` (the dummy-point count in VB; the FID-start offset plus
the dummy-point count in VD), the stored usable length is
`u = 2^⌊log2(n − s)⌋` — the largest power of two not exceeding `n − s` —
and each channel row is the slice `[s, s + u)` of that channel's `n`
reconstructed complex samples. -/
theorem claim_C2 :
    (∀ (d : List Nat) (pos : Nat) (b b' : Builder) (pos' ns s0 : Nat),
      ns = leValAt d (pos + 28) 2 → s0 = leValAt d (pos + 88) 2 →
      stepVB d pos b = some (ScanStep.scan b' pos') → s0 < ns →
      b'.np = some (2 ^ Nat.log2 (ns - s0)) ∧
      2 ^ Nat.log2 (ns - s0) ≤ ns - s0 ∧ ns - s0 < 2 * 2 ^ Nat.log2 (ns - s0) ∧
      ∃ rows, b'.data = b.data ++ [rows] ∧
        rows.length = leValAt d (pos + 30) 2 ∧
        ∀ i, i < rows.length → rows.get? i = some
          (((toPairsConj (f32words ((d.drop (pos + 124 + i * (128 + ns * 4 * 2) + 4)).take
            (ns * 4 * 2)))).drop s0).take (2 ^ Nat.log2 (ns - s0)))) ∧
    (∀ (d : List Nat) (pos : Nat) (b b' : Builder) (pos' ns s0 : Nat),
      ns = leValAt d (pos + 48) 2 →
      s0 = leValAt d (pos + 136) 2 + leValAt d (pos + 176) 2 →
      stepVD d pos b = some (ScanStep.scan b' pos') → s0 < ns →
      b'.np = some (2 ^ Nat.log2 (ns - s0)) ∧
      2 ^ Nat.log2 (ns - s0) ≤ ns - s0 ∧ ns - s0 < 2 * 2 ^ Nat.log2 (ns - s0) ∧
      ∃ rows, b'.data = b.data ++ [rows] ∧
        rows.length = leValAt d (pos + 50) 2 ∧
        ∀ i, i < rows.length → rows.get? i = some
          (((toPairsConj (f32words ((d.drop (pos + 192 + i * (32 + ns * 4 * 2) + 32)).take
            (ns * 4 * 2)))).drop s0).take (2 ^ Nat.log2 (ns - s0)))) := by
  constructor
  · intro d pos b b' pos' ns s0 hns hs0 h hlt
    obtain ⟨bn, bnp, rows, p2, hsnc, hle, hsnp, hrc, hb', _⟩ :=
      scanTailVB_inv d pos b (pos + 28) (leValAt d pos 4 % 2 ^ 26) b' pos'
        (stepVB_scan_inv d pos b b' pos' h)
    rw [show pos + 28 + 60 = pos + 88 from by omega] at hle hsnp hrc
    rw [show pos + 28 + 2 = pos + 30 from by omega] at hsnc hrc
    rw [show pos + 28 + 96 = pos + 124 from by omega] at hrc
    rw [← hns, ← hs0] at hle hsnp hrc
    have hm : ns - s0 ≠ 0 := by omega
    have hpow := pow2FloorLog2_pos (ns - s0) hm
    obtain ⟨hbnp, _, hdnp, _, _⟩ := setNp_inv hsnp
    obtain ⟨_, _, hdnc, _, _⟩ := setNumChannels_inv hsnc
    obtain ⟨hlenr, _, hrows⟩ := readChannelsVB_inv d ns s0 (pow2FloorLog2 (ns - s0))
      (leValAt d (pos + 30) 2) (pos + 124) rows p2 hrc
    refine ⟨?_, (pow2_log2_bounds _ hm).1, (pow2_log2_bounds _ hm).2, rows, ?_, ?_, ?_⟩
    · rw [hb']
      show bnp.np = _
      rw [hbnp, hpow]
    · rw [hb']
      show bnp.data ++ [rows] = b.data ++ [rows]
      rw [hdnp, hdnc]
    · exact hlenr.trans rfl
    · intro i hi
      rw [hlenr] at hi
      have := hrows i hi
      rw [this, hpow]
  · intro d pos b b' pos' ns s0 hns hs0 h hlt
    obtain ⟨bn, bnp, rows, p2, hsnc, hle, hsnp, hrc, hb', _⟩ :=
      scanTailVD_inv d pos b (pos + 48) (leValAt d pos 4 % 2 ^ 26) b' pos'
        (stepVD_scan_inv d pos b b' pos' h)
    rw [show pos + 48 + 88 = pos + 136 from by omega] at hle hsnp hrc
    rw [show pos + 48 + 128 = pos + 176 from by omega] at hle hsnp hrc
    rw [show pos + 48 + 2 = pos + 50 from by omega] at hsnc hrc
    rw [show pos + 48 + 144 = pos + 192 from by omega] at hrc
    rw [← hns, ← hs0] at hle hsnp hrc
    have hm : ns - s0 ≠ 0 := by omega
    have hpow := pow2FloorLog2_pos (ns - s0) hm
    obtain ⟨hbnp, _, hdnp, _, _⟩ := setNp_inv hsnp
    obtain ⟨_, _, hdnc, _, _⟩ := setNumChannels_inv hsnc
    obtain ⟨hlenr, _, hrows⟩ := readChannelsVD_inv d ns s0 (pow2FloorLog2 (ns - s0))
      (leValAt d (pos + 50) 2) (pos + 192) rows p2 hrc
    refine ⟨?_, (pow2_log2_bounds _ hm).1, (pow2_log2_bounds _ hm).2, rows, ?_, ?_, ?_⟩
    · rw [hb']
      show bnp.np = _
      rw [hbnp, hpow]
    · rw [hb']
      show bnp.data ++ [rows] = b.data ++ [rows]
      rw [hdnp, hdnc]
    · exact hlenr.trans rfl
    · intro i hi
      rw [hlenr] at hi
      have := hrows i hi
      rw [this, hpow]

set_option maxRecDepth 20000 in
/-- Claim C2 witness: the concrete accepted records of both variants store
`np = 2^⌊log2(8 − 2)⌋ = 4`. -/
theorem claim_C2_witness :
    bC2.np = some (2 ^ Nat.log2 (leValAt recScanVB (0 + 28) 2 - leValAt recScanVB (0 + 88) 2)) ∧
    bC2vd.np = some (2 ^ Nat.log2 (leValAt recScanVD (0 + 48) 2 -
      (leValAt recScanVD (0 + 136) 2 + leValAt recScanVD (0 + 176) 2))) ∧
    2 ^ Nat.log2 (leValAt recScanVB (0 + 28) 2 - leValAt recScanVB (0 + 88) 2) = 4 := by
  refine ⟨?_, ?_, by rw [← log2floor_eq]; decide⟩
  · exact (claim_C2.1 recScanVB 0 Builder.init bC2 316 _ _ rfl rfl (by decide) (by decide)).1
  · exact (claim_C2.2 recScanVD 0 Builder.init bC2vd 400 _ _ rfl rfl (by decide) (by decide)).1

set_option maxRecDepth 20000 in
/-- Claim C8 counterexample: at a concrete channel block the decoder's row
differs from the row obtained by first skipping 124 bytes and then reading
the sample pairs — the source instead reads a 4-byte channel word, then the
samples, and skips the 124 repeated sub-header bytes afterwards. -/
theorem claim_C8_counterexample :
    (readChannelVB dC8 0 1 0 1).map Prod.fst ≠
      (readChannelVB_claimed dC8 0 1).map Prod.fst := by
  decide

/-- Claim C8 (amended): in VB, each channel block consists of a 4-byte
channel word, then `sample_count` interleaved (real, imaginary) 32-bit
float pairs — conjugated by negating the imaginary word — read from byte
offset 4 of the block, then 124 skipped bytes of the repeated per-channel
sub-header, giving a per-channel stride of `128 + 8·sample_count`; each row
is the conjugated pair sequence sliced to the usable window. -/
theorem claim_C8_amended (d : List Nat) (pos ns ndp np nc : Nat)
    (rows : List (List Cplx)) (p2 : Nat)
    (h : readChannelsVB d ns ndp np nc pos = some (rows, p2)) :
    rows.length = nc ∧ p2 = pos + nc * (128 + ns * 4 * 2) ∧
    ∀ i, i < nc → rows.get? i = some
      (((toPairsConj (f32words ((d.drop (pos + i * (128 + ns * 4 * 2) + 4)).take
        (ns * 4 * 2)))).drop ndp).take np) :=
  readChannelsVB_inv d ns ndp np nc pos rows p2 h

set_option maxRecDepth 20000 in
/-- Claim C8 witness: one concrete channel of one sample. -/
theorem claim_C8_witness :
    readChannelsVB dC8 1 0 1 1 0 = some ([[(117835012, 2332690696)]], 136) ∧
    [[((117835012 : Nat), (2332690696 : Nat))]].get? 0 = some
      (((toPairsConj (f32words ((dC8.drop (0 + 0 * (128 + 1 * 4 * 2) + 4)).take
        (1 * 4 * 2)))).drop 0).take 1) := by
  refine ⟨by decide, ?_⟩
  exact (claim_C8_amended dC8 0 1 0 1 1 _ 136 (by decide)).2.2 0 (by decide)

/-! ## Claim C10: `re.escape` on the parsed patient name -/

/-- `re.escape` is the identity on text free of special characters. -/
theorem reEscape_eq_self (s : List Char) (h : ∀ c ∈ s, isSpecialChar c = false) :
    reEscape s = s := by
  induction s with
  | nil => rfl
  | cons c cs ih =>
    rw [reEscape, List.flatMap_cons, if_neg (by rw [h c (List.mem_cons_self c cs)]; simp)]
    rw [show cs.flatMap (fun c => if isSpecialChar c then ['\\', c] else [c]) = reEscape cs
      from rfl]
    rw [ih (fun c hc => h c (List.mem_cons_of_mem _ hc))]
    rfl

/-- A successful parse stores `re.escape` of the raw PatientName group. -/
theorem parse_patient_name (s : List Char) (r : ParsedHeader)
    (h : parse_twix_header s = some r) :
    ∃ g, nameFieldText s = some g ∧ r.patient_name = reEscape g := by
  unfold parse_twix_header at h
  cases h1 : reSearch protocolNamePat s with
  | none =>
    rw [h1] at h
    dsimp only [Option.bind_eq_bind, Option.none_bind] at h
    exact Option.noConfusion h
  | some m1 =>
  obtain ⟨i1, l1⟩ := m1
  rw [h1] at h
  dsimp only [Option.bind_eq_bind, Option.some_bind] at h
  cases h2 : (splitOn '"' (matchText s i1 l1)).get? 3 with
  | none =>
    rw [h2] at h
    dsimp only [Option.bind_eq_bind, Option.none_bind] at h
    exact Option.noConfusion h
  | some protoName =>
  rw [h2] at h
  dsimp only [Option.bind_eq_bind, Option.some_bind] at h
  cases h3 : reSearch parsePatientIDPat s with
  | none =>
    rw [h3] at h
    dsimp only [Option.bind_eq_bind, Option.none_bind] at h
    exact Option.noConfusion h
  | some m2 =>
  obtain ⟨i2, l2⟩ := m2
  rw [h3] at h
  dsimp only [Option.bind_eq_bind, Option.some_bind] at h
  cases h4 : (splitOn '"' (matchText s i2 l2)).get? 3 with
  | none =>
    rw [h4] at h
    dsimp only [Option.bind_eq_bind, Option.none_bind] at h
    exact Option.noConfusion h
  | some pid =>
  rw [h4] at h
  dsimp only [Option.bind_eq_bind, Option.some_bind] at h
  cases h5 : reSearch parseNamePat s with
  | none =>
    rw [h5] at h
    dsimp only [Option.bind_eq_bind, Option.none_bind] at h
    exact Option.noConfusion h
  | some m3 =>
  obtain ⟨i3, l3⟩ := m3
  rw [h5] at h
  dsimp only [Option.bind_eq_bind, Option.some_bind] at h
  cases h6 : reSearch parseBirthDayPat s with
  | none =>
    rw [h6] at h
    dsimp only [Option.bind_eq_bind, Option.none_bind] at h
    exact Option.noConfusion h
  | some m4 =>
  obtain ⟨i4, l4⟩ := m4
  rw [h6] at h
  dsimp only [Option.bind_eq_bind, Option.some_bind] at h
  cases h7 : reSearch freqPat s with
  | none =>
    rw [h7] at h
    dsimp only [Option.bind_eq_bind, Option.none_bind] at h
    exact Option.noConfusion h
  | some m5 =>
  obtain ⟨i5, l5⟩ := m5
  rw [h7] at h
  dsimp only [Option.bind_eq_bind, Option.some_bind] at h
  cases h8 : reSearch digitsPat (matchText s i5 l5) with
  | none =>
    rw [h8] at h
    dsimp only [Option.bind_eq_bind, Option.none_bind] at h
    exact Option.noConfusion h
  | some m6 =>
  obtain ⟨j5, n5⟩ := m6
  rw [h8] at h
  dsimp only [Option.bind_eq_bind, Option.some_bind] at h
  cases h9 : reSearch dwellPat s with
  | none =>
    rw [h9] at h
    dsimp only [Option.bind_eq_bind, Option.none_bind] at h
    exact Option.noConfusion h
  | some m7 =>
  obtain ⟨i6, l6⟩ := m7
  rw [h9] at h
  dsimp only [Option.bind_eq_bind, Option.some_bind] at h
  cases h10 : reSearch digitsPat (matchText s i6 l6) with
  | none =>
    rw [h10] at h
    dsimp only [Option.bind_eq_bind, Option.none_bind] at h
    exact Option.noConfusion h
  | some m8 =>
  obtain ⟨j6, n6⟩ := m8
  rw [h10] at h
  dsimp only [Option.bind_eq_bind, Option.some_bind, Option.some.injEq] at h
  refine ⟨groupText s i3 l3 2, by rw [nameFieldText, h5]; rfl, ?_⟩
  have hh := Option.some.inj h
  rw [← hh]

/-- Inversion of `build_mrsdata`: the metadata mapping carries the parsed
header's patient name unchanged. -/
theorem build_mrsdata_name (b : Builder) (r : ParsedHeader) (out : MRSOut)
    (hr : b.header_params = some r) (h : build_mrsdata b = some out) :
    out.patient_name = r.patient_name := by
  unfold build_mrsdata at h
  cases hT : buildTensor b with
  | none =>
    rw [hT] at h
    dsimp only [Option.bind_eq_bind, Option.none_bind] at h
    exact Option.noConfusion h
  | some T =>
  rw [hT, hr] at h
  dsimp only [Option.bind_eq_bind, Option.some_bind] at h
  cases h
  rfl

set_option maxRecDepth 40000 in
/-- Claim C10: the header parser applies `re.escape` to the patient name
before returning it: when the PatientName value contains only characters
unchanged by escaping, the returned `patient_name` equals the field text;
but for a value containing a regex metacharacter (here `.`) the returned
value — which `build_mrsdata` propagates into the output metadata —
contains an inserted backslash and differs from the literal field text. -/
theorem claim_C10 :
    (∀ (s : List Char) (r : ParsedHeader) (g : List Char),
      parse_twix_header s = some r → nameFieldText s = some g →
      (∀ c ∈ g, isSpecialChar c = false) → r.patient_name = g) ∧
    ((parse_twix_header hParse).map (fun r => r.patient_name) = some "J\\.DOE".toList ∧
     nameFieldText hParse = some "J.DOE".toList ∧
     "J\\.DOE".toList ≠ "J.DOE".toList ∧ '\\' ∈ "J\\.DOE".toList) ∧
    (∀ (b : Builder) (r : ParsedHeader) (out : MRSOut),
      b.header_params = some r → build_mrsdata b = some out →
      out.patient_name = r.patient_name) := by
  refine ⟨?_, ⟨?_, by decide, by decide, by decide⟩, build_mrsdata_name⟩
  · intro s r g hp hn hplain
    obtain ⟨g', hg', hr⟩ := parse_patient_name s r hp
    rw [hn] at hg'
    cases hg'
    rw [hr, reEscape_eq_self g hplain]
  · decide

set_option maxRecDepth 40000 in
/-- Claim C10 witness: a metacharacter-free name round-trips, and the
metadata of a finalized builder carries the parsed name. -/
theorem claim_C10_witness :
    (parse_twix_header hPlain).map (fun r => r.patient_name) = some "DOE".toList ∧
    (build_mrsdata bMeta).map (fun o => o.patient_name) = some "n".toList := by
  constructor
  · obtain ⟨r, hr⟩ : ∃ r, parse_twix_header hPlain = some r := by
      cases h : parse_twix_header hPlain with
      | none =>
        have hk : (parse_twix_header hPlain).isSome = true := by decide
        rw [h] at hk
        exact Bool.noConfusion hk
      | some r => exact ⟨r, rfl⟩
    rw [hr, Option.map_some',
      claim_C10.1 hPlain r "DOE".toList hr (by decide) (by decide)]
  · obtain ⟨o, ho⟩ : ∃ o, build_mrsdata bMeta = some o := by
      cases h : build_mrsdata bMeta with
      | none =>
        have hk : (build_mrsdata bMeta).isSome = true := by decide
        rw [h] at hk
        exact Bool.noConfusion hk
      | some o => exact ⟨o, rfl⟩
    rw [ho, Option.map_some', claim_C10.2.2 bMeta rMeta o rfl ho]
    rfl

/-! ## Claim C6: failure behaviour of the anonymizer's pattern searches -/

/-- A successful id pass implies its locating search matched. -/
theorem anonIdStep_search {s s1 : List Char} (h : anonIdStep s = some s1) :
    (reSearch anonPatientIDPat s).isSome = true := by
  unfold anonIdStep at h
  cases hr : reSearch anonPatientIDPat s with
  | none =>
    rw [hr] at h
    dsimp only [Option.bind_eq_bind, Option.none_bind] at h
    exact Option.noConfusion h
  | some m => rfl

/-- A successful birth-date pass implies its locating search matched. -/
theorem anonBdayStep_search {s s1 : List Char} (h : anonBdayStep s = some s1) :
    (reSearch anonBirthDayPat s).isSome = true := by
  unfold anonBdayStep at h
  cases hr : reSearch anonBirthDayPat s with
  | none =>
    rw [hr] at h
    dsimp only [Option.bind_eq_bind, Option.none_bind] at h
    exact Option.noConfusion h
  | some m => rfl

/-- A successful name pass implies its locating search matched. -/
theorem anonNameStep_search {s s1 : List Char} (h : anonNameStep s = some s1) :
    (reSearch anonNamePat s).isSome = true := by
  unfold anonNameStep at h
  cases hr : reSearch anonNamePat s with
  | none =>
    rw [hr] at h
    dsimp only [Option.bind_eq_bind, Option.none_bind] at h
    exact Option.noConfusion h
  | some m => rfl

/-- A successful sex pass implies its locating search matched. -/
theorem anonSexStep_search {s s1 : List Char} (h : anonSexStep s = some s1) :
    (reSearch patientSexPat s).isSome = true := by
  unfold anonSexStep at h
  cases hr : reSearch patientSexPat s with
  | none =>
    rw [hr] at h
    dsimp only [Option.bind_eq_bind, Option.none_bind] at h
    exact Option.noConfusion h
  | some m => rfl

/-- A successful date pass implies the FrameOfReference search matched. -/
theorem anonDateStep_search {s s1 : List Char} (h : anonDateStep s = some s1) :
    (reSearch frameOfReferencePat s).isSome = true := by
  unfold anonDateStep at h
  cases hr : reSearch frameOfReferencePat s with
  | none =>
    rw [hr] at h
    dsimp only [Option.bind_eq_bind, Option.none_bind] at h
    exact Option.noConfusion h
  | some m => rfl

/-- A successful anonymization decomposes into its five fallible passes. -/
theorem anonymize_chain (s t : List Char) (h : anonymize_twix_header s = some t) :
    ∃ s1 s2 s3 s4, anonIdStep s = some s1 ∧ anonBdayStep s1 = some s2 ∧
      anonNameStep s2 = some s3 ∧ anonSexStep s3 = some s4 ∧
      anonDateStep (anonSexDupStep s4) = some t := by
  unfold anonymize_twix_header at h
  cases h1 : anonIdStep s with
  | none =>
    rw [h1] at h
    dsimp only [Option.bind_eq_bind, Option.none_bind] at h
    exact Option.noConfusion h
  | some s1 =>
  rw [h1] at h
  dsimp only [Option.bind_eq_bind, Option.some_bind] at h
  cases h2 : anonBdayStep s1 with
  | none =>
    rw [h2] at h
    dsimp only [Option.bind_eq_bind, Option.none_bind] at h
    exact Option.noConfusion h
  | some s2 =>
  rw [h2] at h
  dsimp only [Option.bind_eq_bind, Option.some_bind] at h
  cases h3 : anonNameStep s2 with
  | none =>
    rw [h3] at h
    dsimp only [Option.bind_eq_bind, Option.none_bind] at h
    exact Option.noConfusion h
  | some s3 =>
  rw [h3] at h
  dsimp only [Option.bind_eq_bind, Option.some_bind] at h
  cases h4 : anonSexStep s3 with
  | none =>
    rw [h4] at h
    dsimp only [Option.bind_eq_bind, Option.none_bind] at h
    exact Option.noConfusion h
  | some s4 =>
  rw [h4] at h
  dsimp only [Option.bind_eq_bind, Option.some_bind] at h
  exact ⟨s1, s2, s3, s4, rfl, h2, h3, h4, h⟩

set_option maxRecDepth 40000 in
/-- Claim C6 counterexample: a header whose PatientID-locating pattern
matches twice is anonymized without any error. -/
theorem claim_C6_counterexample :
    2 ≤ countMatches anonPatientIDPat hDup ∧
    (anonymize_twix_header hDup).isSome = true := by
  exact ⟨by decide, by decide⟩

/-- Claim C6 (amended): anonymization fails with an error — producing no
output — whenever any one of its five PHI-locating pattern searches
matches zero times on its pass's input; a pattern matching more than once
does **not** fail: the search passes use the first match and the
substitution passes replace every occurrence. -/
theorem claim_C6_amended (s t : List Char) (h : anonymize_twix_header s = some t) :
    (reSearch anonPatientIDPat s).isSome = true ∧
    (∀ s1, anonIdStep s = some s1 → (reSearch anonBirthDayPat s1).isSome = true) ∧
    (∀ s1 s2, anonIdStep s = some s1 → anonBdayStep s1 = some s2 →
      (reSearch anonNamePat s2).isSome = true) ∧
    (∀ s1 s2 s3, anonIdStep s = some s1 → anonBdayStep s1 = some s2 →
      anonNameStep s2 = some s3 → (reSearch patientSexPat s3).isSome = true) ∧
    (∀ s1 s2 s3 s4, anonIdStep s = some s1 → anonBdayStep s1 = some s2 →
      anonNameStep s2 = some s3 → anonSexStep s3 = some s4 →
      (reSearch frameOfReferencePat (anonSexDupStep s4)).isSome = true) := by
  obtain ⟨s1, s2, s3, s4, h1, h2, h3, h4, h5⟩ := anonymize_chain s t h
  refine ⟨anonIdStep_search h1, ?_, ?_, ?_, ?_⟩
  · intro u1 hu1
    rw [hu1] at h1
    cases h1
    exact anonBdayStep_search h2
  · intro u1 u2 hu1 hu2
    rw [hu1] at h1
    cases h1
    rw [hu2] at h2
    cases h2
    exact anonNameStep_search h3
  · intro u1 u2 u3 hu1 hu2 hu3
    rw [hu1] at h1
    cases h1
    rw [hu2] at h2
    cases h2
    rw [hu3] at h3
    cases h3
    exact anonSexStep_search h4
  · intro u1 u2 u3 u4 hu1 hu2 hu3 hu4
    rw [hu1] at h1
    cases h1
    rw [hu2] at h2
    cases h2
    rw [hu3] at h3
    cases h3
    rw [hu4] at h4
    cases h4
    exact anonDateStep_search h5

set_option maxRecDepth 40000 in
/-- Claim C6 witness: the amended theorem applied at a concrete header. -/
theorem claim_C6_witness :
    (reSearch anonPatientIDPat hGood).isSome = true := by
  obtain ⟨t, ht⟩ : ∃ t, anonymize_twix_header hGood = some t := by
    cases h : anonymize_twix_header hGood with
    | none =>
      have hk : (anonymize_twix_header hGood).isSome = true := by decide
      rw [h] at hk
      exact Bool.noConfusion hk
    | some t => exact ⟨t, rfl⟩
  exact (claim_C6_amended hGood t ht).1

/-! ## Claims C1 and C5: length and frame properties of the anonymizer

The key tool is an induction over `reSubCore`: when every match's
replacement has exactly the match's length, substitution preserves the
text's length and leaves every position outside the replaced spans
untouched. -/

/-- Every candidate left by matching an element sequence is a suffix of
the subject. -/
theorem seqCands_drop (es : List RElem) :
    ∀ (s : List Char), ∀ r ∈ seqCands es s, ∃ k, k ≤ s.length ∧ r = s.drop k := by
  induction es with
  | nil =>
    intro s r hr
    rw [seqCands] at hr
    rw [List.mem_singleton.1 hr]
    exact ⟨0, Nat.zero_le _, rfl⟩
  | cons e es ih =>
    intro s r hr
    cases e with
    | atom a =>
      cases s with
      | nil => rw [seqCands] at hr; exact absurd hr (List.not_mem_nil r)
      | cons c s' =>
        rw [seqCands] at hr
        by_cases hm : matchAtom a c
        · rw [if_pos hm] at hr
          obtain ⟨k, hk, hrk⟩ := ih s' r hr
          exact ⟨k + 1, by simp only [List.length_cons]; omega, by rw [hrk]; rfl⟩
        · rw [if_neg hm] at hr
          exact absurd hr (List.not_mem_nil r)
    | star a =>
      rw [seqCands] at hr
      obtain ⟨j, _, hr⟩ := List.mem_flatMap.1 hr
      obtain ⟨k, hk, hrk⟩ := ih (s.drop (runLen a s - j)) r hr
      refine ⟨runLen a s - j + k, ?_, by rw [hrk, List.drop_drop]⟩
      have hd := List.length_drop (runLen a s - j) s
      have hrl : runLen a s ≤ s.length := (List.takeWhile_sublist _).length_le
      omega
    | plus a =>
      rw [seqCands] at hr
      obtain ⟨j, _, hr⟩ := List.mem_flatMap.1 hr
      obtain ⟨k, hk, hrk⟩ := ih (s.drop (runLen a s - j)) r hr
      refine ⟨runLen a s - j + k, ?_, by rw [hrk, List.drop_drop]⟩
      have hd := List.length_drop (runLen a s - j) s
      have hrl : runLen a s ≤ s.length := (List.takeWhile_sublist _).length_le
      omega

/-- Membership in `groupCands` over a cons pattern decomposes into a head
candidate and a tail match. -/
theorem groupCands_cons (g : List RElem) (gs : Pattern) (s : List Char)
    (lens : List Nat) (rest : List Char)
    (h : (lens, rest) ∈ groupCands (g :: gs) s) :
    ∃ r lens', r ∈ seqCands g s ∧ (lens', rest) ∈ groupCands gs r ∧
      lens = (s.length - r.length) :: lens' := by
  rw [groupCands] at h
  obtain ⟨r, hr, h⟩ := List.mem_flatMap.1 h
  obtain ⟨c, hc, hce⟩ := List.mem_map.1 h
  obtain ⟨lens', rest'⟩ := c
  have h1 : (s.length - r.length) :: lens' = lens := congrArg Prod.fst hce
  have h2 : rest' = rest := congrArg Prod.snd hce
  exact ⟨r, lens', hr, h2 ▸ hc, h1.symm⟩

/-- A `groupCands` candidate consumes exactly the sum of its group lengths,
leaves the corresponding suffix, and has one length per group. -/
theorem groupCands_drop (p : Pattern) :
    ∀ (s : List Char) (lens : List Nat) (rest : List Char),
      (lens, rest) ∈ groupCands p s →
      rest = s.drop lens.sum ∧ lens.sum ≤ s.length ∧ lens.length = p.length := by
  induction p with
  | nil =>
    intro s lens rest h
    rw [groupCands] at h
    have := List.mem_singleton.1 h
    have h1 : lens = [] := congrArg Prod.fst this
    have h2 : rest = s := congrArg Prod.snd this
    subst h1
    subst h2
    exact ⟨by simp, by simp, rfl⟩
  | cons g gs ih =>
    intro s lens rest h
    obtain ⟨r, lens', hr, hmem, hl⟩ := groupCands_cons g gs s lens rest h
    obtain ⟨k, hk, hrk⟩ := seqCands_drop g s r hr
    obtain ⟨hrest, hsum, hlen⟩ := ih _ _ _ hmem
    subst hl
    subst hrk
    have hdl : (s.drop k).length = s.length - k := List.length_drop k s
    refine ⟨?_, ?_, by simp [hlen]⟩
    · rw [hrest, List.drop_drop]
      congr 1
      simp only [List.sum_cons, hdl]
      omega
    · simp only [List.sum_cons, hdl]
      rw [hdl] at hsum
      omega

/-- An anchored match consumes at most the subject and has one length per
group. -/
theorem matchAt_spec (p : Pattern) (s : List Char) (lens : List Nat)
    (h : matchAt p s = some lens) :
    lens.sum ≤ s.length ∧ lens.length = p.length ∧
      ∃ rest, (lens, rest) ∈ groupCands p s := by
  unfold matchAt at h
  cases hg : groupCands p s with
  | nil => rw [hg] at h; exact Option.noConfusion h
  | cons c cs =>
    rw [hg] at h
    simp only [List.head?_cons, Option.map_some', Option.some.injEq] at h
    have hmem : (lens, c.2) ∈ groupCands p s := by
      rw [hg, ← h]
      exact List.mem_cons_self c cs
    have hd := groupCands_drop p s lens c.2 hmem
    have hmem2 : (lens, c.2) ∈ c :: cs := by
      rw [← h]
      exact List.mem_cons_self c cs
    exact ⟨hd.2.1, hd.2.2, c.2, hmem2⟩

/-- `reSearchAux` finds a match offset past its starting index. -/
theorem reSearchAux_spec (p : Pattern) :
    ∀ (s : List Char) (i0 i : Nat) (lens : List Nat),
      reSearchAux p s i0 = some (i, lens) →
      i0 ≤ i ∧ i - i0 ≤ s.length ∧ matchAt p (s.drop (i - i0)) = some lens := by
  intro s
  induction s with
  | nil =>
    intro i0 i lens h
    rw [reSearchAux] at h
    cases hm : matchAt p [] with
    | none => rw [hm] at h; exact Option.noConfusion h
    | some l =>
      rw [hm] at h
      simp only [Option.some.injEq, Prod.mk.injEq] at h
      obtain ⟨h1, h2⟩ := h
      subst h1
      subst h2
      exact ⟨Nat.le_refl _, by simp, by simpa using hm⟩
  | cons c s' ih =>
    intro i0 i lens h
    rw [reSearchAux] at h
    cases hm : matchAt p (c :: s') with
    | some l =>
      rw [hm] at h
      simp only [Option.some.injEq, Prod.mk.injEq] at h
      obtain ⟨h1, h2⟩ := h
      subst h1
      subst h2
      exact ⟨Nat.le_refl _, by simp, by simpa using hm⟩
    | none =>
      rw [hm] at h
      obtain ⟨h1, h2, h3⟩ := ih (i0 + 1) i lens h
      refine ⟨by omega, by simp only [List.length_cons]; omega, ?_⟩
      rw [show i - i0 = (i - (i0 + 1)) + 1 from by omega]
      simpa using h3

/-- A successful `re.search`: the match fits in the subject, has one length
per group, and is an anchored match of the suffix at its offset. -/
theorem reSearch_spec (p : Pattern) (s : List Char) (i : Nat) (lens : List Nat)
    (h : reSearch p s = some (i, lens)) :
    i + lens.sum ≤ s.length ∧ lens.length = p.length ∧
      matchAt p (s.drop i) = some lens := by
  obtain ⟨_, h2, h3⟩ := reSearchAux_spec p s 0 i lens h
  rw [Nat.sub_zero] at h2 h3
  obtain ⟨hsum, hlen, _⟩ := matchAt_spec p (s.drop i) lens h3
  have hd := List.length_drop i s
  exact ⟨by omega, hlen, h3⟩

/-- A match of an element sequence consumes at least one character for
every atom or `+` element (`*` elements may consume nothing), and leaves a
suffix no longer than the subject. -/
theorem seqCands_countP (es : List RElem) :
    ∀ (s : List Char), ∀ r ∈ seqCands es s,
      es.countP consumesOne ≤ s.length - r.length ∧ r.length ≤ s.length := by
  induction es with
  | nil =>
    intro s r hr
    rw [seqCands] at hr
    rw [List.mem_singleton.1 hr]
    simp
  | cons e es ih =>
    intro s r hr
    cases e with
    | atom a =>
      cases s with
      | nil => rw [seqCands] at hr; exact absurd hr (List.not_mem_nil r)
      | cons c s' =>
        rw [seqCands] at hr
        by_cases hm : matchAtom a c
        · rw [if_pos hm] at hr
          obtain ⟨h1, h2⟩ := ih s' r hr
          have hc : consumesOne (RElem.atom a) = true := rfl
          constructor
          · simp only [List.countP_cons, hc, eq_self_iff_true, if_true, List.length_cons]
            omega
          · simp only [List.length_cons]; omega
        · rw [if_neg hm] at hr
          exact absurd hr (List.not_mem_nil r)
    | star a =>
      rw [seqCands] at hr
      obtain ⟨j, hj, hr⟩ := List.mem_flatMap.1 hr
      obtain ⟨h1, h2⟩ := ih _ r hr
      have hd := List.length_drop (runLen a s - j) s
      have hc : consumesOne (RElem.star a) = false := rfl
      constructor
      · simp only [List.countP_cons, hc, Bool.false_eq_true, if_false, Nat.add_zero]
        omega
      · omega
    | plus a =>
      rw [seqCands] at hr
      obtain ⟨j, hj, hr⟩ := List.mem_flatMap.1 hr
      rw [List.mem_range] at hj
      obtain ⟨h1, h2⟩ := ih _ r hr
      have hd := List.length_drop (runLen a s - j) s
      have hrl : runLen a s ≤ s.length := (List.takeWhile_sublist _).length_le
      have hc : consumesOne (RElem.plus a) = true := rfl
      constructor
      · simp only [List.countP_cons, hc, eq_self_iff_true, if_true]
        omega
      · omega

/-- A sequence of plain atoms consumes exactly one character per element. -/
theorem seqCands_atoms (es : List RElem) :
    ∀ (s : List Char), (∀ e ∈ es, ∃ a, e = RElem.atom a) →
      ∀ r ∈ seqCands es s, es.length ≤ s.length ∧ r = s.drop es.length := by
  induction es with
  | nil =>
    intro s _ r hr
    rw [seqCands] at hr
    rw [List.mem_singleton.1 hr]
    exact ⟨Nat.zero_le _, rfl⟩
  | cons e es ih =>
    intro s hA r hr
    obtain ⟨a, he⟩ := hA e (List.mem_cons_self e es)
    subst he
    cases s with
    | nil => rw [seqCands] at hr; exact absurd hr (List.not_mem_nil r)
    | cons c s' =>
      rw [seqCands] at hr
      by_cases hm : matchAtom a c
      · rw [if_pos hm] at hr
        obtain ⟨h1, h2⟩ := ih s' (fun e' he' => hA e' (List.mem_cons_of_mem _ he')) r hr
        refine ⟨by simp only [List.length_cons]; omega, ?_⟩
        rw [h2]
        rfl
      · rw [if_neg hm] at hr
        exact absurd hr (List.not_mem_nil r)

/-- `compileLits` on a cons with a non-special head: one literal atom, then
the rest. -/
theorem compileLits_cons_plain (c : Char) (rest : List Char)
    (h : isSpecialChar c = false) :
    compileLits (c :: rest) = (compileLits rest).map (RElem.atom (.lit c) :: ·) := by
  rw [compileLits.eq_def]
  split
  all_goals rename_i heq
  all_goals cases heq
  · exact absurd h (by decide)
  · exact absurd h (by decide)
  · rw [if_neg (by simp [h])]

/-- `compileLits` on a string without special characters: one literal atom
per character. -/
theorem compileLits_noSpecial (v : List Char)
    (h : ∀ c ∈ v, isSpecialChar c = false) :
    compileLits v = some (v.map (fun c => RElem.atom (.lit c))) := by
  induction v with
  | nil => rfl
  | cons c cs ih =>
    rw [compileLits_cons_plain c cs (h c (List.mem_cons_self c cs)),
        ih (fun d hd => h d (List.mem_cons_of_mem _ hd))]
    rfl

/-- Compiling the `re.escape` of any string yields one literal atom per
original character. -/
theorem compileLits_reEscape (v : List Char) :
    compileLits (reEscape v) = some (v.map (fun c => RElem.atom (.lit c))) := by
  induction v with
  | nil => rfl
  | cons c cs ih =>
    have hstep : reEscape (c :: cs) =
        (if isSpecialChar c then ['\\', c] else [c]) ++ reEscape cs := by
      rw [reEscape, reEscape, List.flatMap_cons]
    by_cases hsp : isSpecialChar c
    · rw [hstep, if_pos hsp]
      rw [List.cons_append, List.cons_append, List.nil_append]
      rw [compileLits]
      rw [if_pos hsp, ih]
      rfl
    · rw [hstep, if_neg hsp, List.cons_append, List.nil_append]
      rw [compileLits_cons_plain c _ (by simpa using hsp), ih]
      rfl

/-- The sum of the first `j` entries plus entry `j` never exceeds the whole
sum. -/
theorem sum_take_getD_le (lens : List Nat) :
    ∀ (j : Nat), j < lens.length → (lens.take j).sum + lens.getD j 0 ≤ lens.sum := by
  induction lens with
  | nil => intro j h; simp at h
  | cons x xs ih =>
    intro j h
    cases j with
    | zero =>
      simp only [List.take_zero, List.sum_nil, List.getD_cons_zero, List.sum_cons,
        Nat.zero_add]
      omega
    | succ j =>
      rw [List.take_succ_cons, List.sum_cons, List.sum_cons, List.getD_cons_succ]
      have := ih j (by simp only [List.length_cons] at h; omega)
      omega

/-- When the match fits in the subject, group `k`'s text has exactly the
recorded group length. -/
theorem groupText_length (s : List Char) (start : Nat) (lens : List Nat) (k : Nat)
    (hb : start + lens.sum ≤ s.length) (hk : k - 1 < lens.length) :
    (groupText s start lens k).length = lens.getD (k - 1) 0 := by
  rw [groupText, List.length_take, List.length_drop]
  have h1 := sum_take_getD_le lens (k - 1) hk
  have h2 : (lens.take (k - 1)).sum ≤ lens.sum := by omega
  exact Nat.min_eq_left (by omega)

/-- When the match fits in the subject, the group texts have exactly the
recorded group lengths. -/
theorem groupTextsAt_lengths (s : List Char) :
    ∀ (lens : List Nat) (i : Nat), i + lens.sum ≤ s.length →
      (groupTextsAt s i lens).map List.length = lens := by
  intro lens
  induction lens with
  | nil => intro i _; rfl
  | cons l ls ih =>
    intro i h
    rw [List.sum_cons] at h
    rw [groupTextsAt, List.map_cons, ih (i + l) (by omega)]
    congr 1
    rw [List.length_take, List.length_drop]
    exact Nat.min_eq_left (by omega)

/-- A search for a single all-atom group records exactly the group's length
as the only group length. -/
theorem reSearch_atoms_lens (es : List RElem)
    (hA : ∀ e ∈ es, ∃ a, e = RElem.atom a)
    (s : List Char) (i : Nat) (lens : List Nat)
    (h : reSearch [es] s = some (i, lens)) : lens = [es.length] := by
  obtain ⟨_, _, hm⟩ := reSearch_spec _ s i lens h
  obtain ⟨_, _, rest, hmem⟩ := matchAt_spec _ _ _ hm
  obtain ⟨r, lens1, hr, hmem1, hl⟩ := groupCands_cons es [] (s.drop i) lens rest hmem
  rw [groupCands] at hmem1
  have hl1 : lens1 = [] := congrArg Prod.fst (List.mem_singleton.1 hmem1)
  obtain ⟨hlen, hreq⟩ := seqCands_atoms es (s.drop i) hA r hr
  have hrlen : r.length = (s.drop i).length - es.length := by
    rw [hreq, List.length_drop]
  rw [hl, hl1, hrlen]
  have hfin : (s.drop i).length - ((s.drop i).length - es.length) = es.length := by
    omega
  rw [hfin]

/-- A single-group search records the consumed length, which is at least
the number of consuming elements of the group. -/
theorem reSearch_single_lens (es : List RElem) (s : List Char) (i : Nat)
    (lens : List Nat) (h : reSearch [es] s = some (i, lens)) :
    ∃ b, lens = [b] ∧ es.countP consumesOne ≤ b := by
  obtain ⟨_, _, hm⟩ := reSearch_spec _ s i lens h
  obtain ⟨_, _, rest, hmem⟩ := matchAt_spec _ _ _ hm
  obtain ⟨r, lens1, hr, hmem1, hl⟩ := groupCands_cons es [] (s.drop i) lens rest hmem
  rw [groupCands] at hmem1
  have hl1 : lens1 = [] := congrArg Prod.fst (List.mem_singleton.1 hmem1)
  obtain ⟨hcnt, hle⟩ := seqCands_countP es _ r hr
  refine ⟨(s.drop i).length - r.length, ?_, hcnt⟩
  rw [hl, hl1]

/-- In a three-group pattern whose middle group is `(\".+\")` the recorded
middle length is at least 3 (two quotes and a non-empty interior). -/
theorem reSearch_quoted_lens (g1 g3 : List RElem) (s : List Char) (i : Nat)
    (lens : List Nat)
    (h : reSearch [g1, [RElem.atom (.lit '"'), RElem.plus .dot, RElem.atom (.lit '"')], g3] s
        = some (i, lens)) :
    ∃ a b c, lens = [a, b, c] ∧ 3 ≤ b := by
  obtain ⟨_, _, hm⟩ := reSearch_spec _ s i lens h
  obtain ⟨_, _, rest, hmem⟩ := matchAt_spec _ _ _ hm
  obtain ⟨r1, lens1, hr1, hmem1, hl⟩ := groupCands_cons _ _ _ lens rest hmem
  obtain ⟨r2, lens2, hr2, hmem2, hl1⟩ := groupCands_cons _ _ _ lens1 rest hmem1
  obtain ⟨r3, lens3, hr3, hmem3, hl2⟩ := groupCands_cons _ _ _ lens2 rest hmem2
  rw [groupCands] at hmem3
  have hl3 : lens3 = [] := congrArg Prod.fst (List.mem_singleton.1 hmem3)
  obtain ⟨hcnt, hle⟩ := seqCands_countP _ r1 r2 hr2
  have hcv : ([RElem.atom (.lit '"'), RElem.plus .dot,
      RElem.atom (.lit '"')]).countP consumesOne = 3 := by decide
  rw [hcv] at hcnt
  refine ⟨(s.drop i).length - r1.length, r1.length - r2.length,
    r2.length - r3.length, ?_, hcnt⟩
  rw [hl, hl1, hl2, hl3]

/-- In the duplicated-`Sex` pattern the digit group's recorded length is
exactly 1. -/
theorem sexDupPat_lens (s : List Char) (i : Nat) (lens : List Nat)
    (h : reSearch sexDupPat s = some (i, lens)) :
    ∃ a c, lens = [a, 1, c] := by
  rw [sexDupPat] at h
  obtain ⟨_, _, hm⟩ := reSearch_spec _ s i lens h
  obtain ⟨_, _, rest, hmem⟩ := matchAt_spec _ _ _ hm
  obtain ⟨r1, lens1, hr1, hmem1, hl⟩ := groupCands_cons _ _ _ lens rest hmem
  obtain ⟨r2, lens2, hr2, hmem2, hl1⟩ := groupCands_cons _ _ _ lens1 rest hmem1
  obtain ⟨r3, lens3, hr3, hmem3, hl2⟩ := groupCands_cons _ _ _ lens2 rest hmem2
  rw [groupCands] at hmem3
  have hl3 : lens3 = [] := congrArg Prod.fst (List.mem_singleton.1 hmem3)
  obtain ⟨hlen, hreq⟩ := seqCands_atoms _ r1
    (by
      intro e he
      rw [List.mem_singleton] at he
      exact ⟨_, he⟩) r2 hr2
  have hlen1 : 1 ≤ r1.length := by simpa using hlen
  have hb : r1.length - r2.length = 1 := by
    rw [hreq, List.length_drop]
    simp only [List.length_cons, List.length_nil]
    omega
  refine ⟨(s.drop i).length - r1.length, r2.length - r3.length, ?_⟩
  rw [hl, hl1, hl2, hl3, hb]

/-- Core length/frame lemma for `re.sub`: when every match is non-empty
and every replacement has exactly the length of the matched text,
substitution preserves the subject's length and agrees with the subject at
every position outside the replaced spans. -/
theorem reSubCore_spec (p : Pattern)
    (repl : List Char → List (List Char) → List Char)
    (HR : ∀ (u : List Char) (i : Nat) (lens : List Nat),
      reSearch p u = some (i, lens) →
      (repl ((u.drop i).take lens.sum) (groupTextsAt u i lens)).length = lens.sum)
    (HNE : ∀ (u : List Char) (i : Nat) (lens : List Nat),
      reSearch p u = some (i, lens) → lens.sum ≠ 0) :
    ∀ (fuel : Nat) (s : List Char) (off : Nat), s.length < fuel →
      (reSubCore p repl fuel s off).1.length = s.length ∧
      ∀ q : Nat,
        (∀ sp ∈ (reSubCore p repl fuel s off).2, off + q < sp.1 ∨ sp.2 ≤ off + q) →
        (reSubCore p repl fuel s off).1.get? q = s.get? q := by
  intro fuel
  induction fuel with
  | zero => intro s off h; exact absurd h (Nat.not_lt_zero _)
  | succ fuel ih =>
    intro s off hfuel
    cases hsearch : reSearch p s with
    | none =>
      have hcore : reSubCore p repl (fuel + 1) s off = (s, []) := by
        rw [reSubCore, hsearch]
      rw [hcore]
      exact ⟨rfl, fun q _ => rfl⟩
    | some il =>
      obtain ⟨i, lens⟩ := il
      have hR := HR s i lens hsearch
      have hNE := HNE s i lens hsearch
      obtain ⟨hbound, _, _⟩ := reSearch_spec p s i lens hsearch
      have hcore : reSubCore p repl (fuel + 1) s off =
          (s.take i ++ repl ((s.drop i).take lens.sum) (groupTextsAt s i lens) ++
             (reSubCore p repl fuel (s.drop (i + lens.sum)) (off + i + lens.sum)).1,
           (off + i, off + i + lens.sum) ::
             (reSubCore p repl fuel (s.drop (i + lens.sum)) (off + i + lens.sum)).2) := by
        rw [reSubCore, hsearch]
        dsimp only
        rw [if_neg hNE]
      have hlt : (s.drop (i + lens.sum)).length < fuel := by
        rw [List.length_drop]
        omega
      obtain ⟨ihlen, ihframe⟩ := ih (s.drop (i + lens.sum)) (off + i + lens.sum) hlt
      have habl : (s.take i ++
          repl ((s.drop i).take lens.sum) (groupTextsAt s i lens)).length
          = i + lens.sum := by
        rw [List.length_append, List.length_take, hR,
          Nat.min_eq_left (show i ≤ s.length from by omega)]
      rw [hcore]
      constructor
      · rw [List.length_append, List.length_append, List.length_take, hR, ihlen,
          List.length_drop, Nat.min_eq_left (show i ≤ s.length from by omega)]
        omega
      · intro q hq
        dsimp only at hq ⊢
        have hhead := hq (off + i, off + i + lens.sum) (List.mem_cons_self _ _)
        have hti : (s.take i).length = i := by
          rw [List.length_take]
          exact Nat.min_eq_left (by omega)
        by_cases hqi : q < i
        · rw [List.get?_append (show q <
            (s.take i ++ repl ((s.drop i).take lens.sum) (groupTextsAt s i lens)).length
            from by rw [habl]; omega)]
          rw [List.get?_append (show q < (s.take i).length from by rw [hti]; omega)]
          exact List.get?_take hqi
        · have hqL : i + lens.sum ≤ q := by
            rcases hhead with hh | hh
            · omega
            · omega
          rw [List.get?_append_right (show
            (s.take i ++ repl ((s.drop i).take lens.sum) (groupTextsAt s i lens)).length ≤ q
            from by rw [habl]; omega)]
          rw [habl]
          have hco : off + i + lens.sum + (q - (i + lens.sum)) = off + q := by
            omega
          have hc2 : ∀ sp ∈
              (reSubCore p repl fuel (s.drop (i + lens.sum)) (off + i + lens.sum)).2,
              off + i + lens.sum + (q - (i + lens.sum)) < sp.1 ∨
                sp.2 ≤ off + i + lens.sum + (q - (i + lens.sum)) := by
            intro sp hsp
            rw [hco]
            exact hq sp (List.mem_cons_of_mem _ hsp)
          rw [ihframe (q - (i + lens.sum)) hc2]
          rw [List.get?_drop]
          congr 1
          omega

/-- `re.sub` preserves length and the text outside the replaced spans when
no match is empty and every replacement has its match's length. -/
theorem reSub_spec (p : Pattern)
    (repl : List Char → List (List Char) → List Char)
    (HR : ∀ (u : List Char) (i : Nat) (lens : List Nat),
      reSearch p u = some (i, lens) →
      (repl ((u.drop i).take lens.sum) (groupTextsAt u i lens)).length = lens.sum)
    (HNE : ∀ (u : List Char) (i : Nat) (lens : List Nat),
      reSearch p u = some (i, lens) → lens.sum ≠ 0)
    (s : List Char) :
    (reSub p repl s).length = s.length ∧
    ∀ q : Nat, (∀ sp ∈ reSubSpans p repl s, q < sp.1 ∨ sp.2 ≤ q) →
      (reSub p repl s).get? q = s.get? q := by
  obtain ⟨h1, h2⟩ := reSubCore_spec p repl HR HNE (s.length + 1) s 0
    (Nat.lt_succ_self _)
  simp only [Nat.zero_add] at h2
  exact ⟨h1, h2⟩

/-- Unfolding `anonIdOk` at a successful search. -/
theorem anonIdOk_spec (s : List Char) (h : anonIdOk s = true) (i : Nat)
    (lens : List Nat) (hr : reSearch anonPatientIDPat s = some (i, lens)) :
    ∀ c ∈ groupText s i lens 2, isSpecialChar c = false := by
  unfold anonIdOk at h
  rw [hr] at h
  dsimp only at h
  intro c hc
  have := List.all_eq_true.1 h c hc
  simpa using this

/-- Unfolding `anonBdayOk` at a successful search. -/
theorem anonBdayOk_spec (s : List Char) (h : anonBdayOk s = true) (i : Nat)
    (lens : List Nat) (hr : reSearch anonBirthDayPat s = some (i, lens)) :
    (∀ c ∈ groupText s i lens 2, isSpecialChar c = false) ∧
    (groupText s i lens 2).length = 10 := by
  unfold anonBdayOk at h
  rw [hr] at h
  dsimp only at h
  rw [Bool.and_eq_true] at h
  obtain ⟨h1, h2⟩ := h
  refine ⟨?_, by simpa using h2⟩
  intro c hc
  have := List.all_eq_true.1 h1 c hc
  simpa using this

/-- Unfolding `anonSexOk` at a successful search. -/
theorem anonSexOk_spec (s : List Char) (h : anonSexOk s = true) (i : Nat)
    (lens : List Nat) (hr : reSearch patientSexPat s = some (i, lens)) :
    lens.getD 1 0 = 1 := by
  unfold anonSexOk at h
  rw [hr] at h
  dsimp only at h
  simpa using h

/-- Extracting the first chain condition. -/
theorem anonCondsOk_id (s : List Char) (h : anonCondsOk s = true) :
    anonIdOk s = true := by
  unfold anonCondsOk at h
  rw [Bool.and_eq_true] at h
  exact h.1

/-- Extracting the second chain condition. -/
theorem anonCondsOk_bday (s s1 : List Char) (h : anonCondsOk s = true)
    (h1 : anonIdStep s = some s1) : anonBdayOk s1 = true := by
  unfold anonCondsOk at h
  rw [Bool.and_eq_true] at h
  have h2 := h.2
  rw [h1] at h2
  dsimp only at h2
  rw [Bool.and_eq_true] at h2
  exact h2.1

/-- Extracting the third chain condition. -/
theorem anonCondsOk_sex (s s1 s2 s3 : List Char) (h : anonCondsOk s = true)
    (h1 : anonIdStep s = some s1) (h2 : anonBdayStep s1 = some s2)
    (h3 : anonNameStep s2 = some s3) : anonSexOk s3 = true := by
  unfold anonCondsOk at h
  rw [Bool.and_eq_true] at h
  have hr := h.2
  rw [h1] at hr
  dsimp only at hr
  rw [Bool.and_eq_true] at hr
  have hr2 := hr.2
  rw [h2] at hr2
  dsimp only at hr2
  rw [h3] at hr2
  dsimp only at hr2
  exact hr2

/-- A successful `mapM` over `Option` preserves the list's length. -/
theorem mapM_option_length {α β : Type} (f : α → Option β) :
    ∀ (l : List α) (r : List β), l.mapM f = some r → r.length = l.length := by
  intro l
  induction l with
  | nil =>
    intro r h
    rw [List.mapM_nil] at h
    have := Option.some.inj h
    rw [← this]
    rfl
  | cons a as ih =>
    intro r h
    rw [List.mapM_cons] at h
    cases hfa : f a with
    | none =>
      rw [hfa] at h
      dsimp only [Option.bind_eq_bind, Option.none_bind] at h
      exact Option.noConfusion h
    | some b =>
      rw [hfa] at h
      dsimp only [Option.bind_eq_bind, Option.some_bind] at h
      cases hms : as.mapM f with
      | none =>
        rw [hms] at h
        dsimp only [Option.bind_eq_bind, Option.none_bind] at h
        exact Option.noConfusion h
      | some bs =>
        rw [hms] at h
        dsimp only [Option.bind_eq_bind, Option.some_bind] at h
        have := Option.some.inj h
        rw [← this, List.length_cons, List.length_cons, ih bs hms]

/-- The PatientID pass preserves length — and touches only its recorded
spans — whenever the identifier value contains no regex-special character. -/
theorem anonIdStep_spec (s t : List Char) (h : anonIdStep s = some t)
    (hok : anonIdOk s = true) :
    t.length = s.length ∧
    ∀ sps, anonIdSpans s = some sps →
      ∀ q : Nat, (∀ sp ∈ sps, q < sp.1 ∨ sp.2 ≤ q) → t.get? q = s.get? q := by
  unfold anonIdStep at h
  cases hr : reSearch anonPatientIDPat s with
  | none =>
    rw [hr] at h
    dsimp only [Option.bind_eq_bind, Option.none_bind] at h
    exact Option.noConfusion h
  | some m =>
  obtain ⟨i, lens⟩ := m
  rw [hr] at h
  dsimp only [Option.bind_eq_bind, Option.some_bind] at h
  have hns := anonIdOk_spec s hok i lens hr
  rw [compileLits_noSpecial _ hns] at h
  dsimp only [Option.bind_eq_bind, Option.some_bind] at h
  have ht := Option.some.inj h
  obtain ⟨a, b, c, hlens, hb3⟩ := reSearch_quoted_lens _ _ s i lens hr
  obtain ⟨hbound, _, _⟩ := reSearch_spec _ s i lens hr
  have hpidlen : (groupText s i lens 2).length = b := by
    rw [groupText_length s i lens 2 hbound (by rw [hlens]; simp), hlens]
    rfl
  have hatoms : ∀ e ∈ (groupText s i lens 2).map (fun c => RElem.atom (RAtom.lit c)),
      ∃ a0, e = RElem.atom a0 := by
    intro e he
    obtain ⟨c0, -, hc0⟩ := List.mem_map.1 he
    exact ⟨_, hc0.symm⟩
  have hHR : ∀ (u : List Char) (j : Nat) (lens' : List Nat),
      reSearch [(groupText s i lens 2).map (fun c => RElem.atom (RAtom.lit c))] u
        = some (j, lens') →
      (((fun _ _ => '"' ::
          (List.replicate ((groupText s i lens 2).length - 2) 'x' ++ ['"'])) :
            List Char → List (List Char) → List Char)
        ((u.drop j).take lens'.sum) (groupTextsAt u j lens')).length = lens'.sum := by
    intro u j lens' hu
    rw [reSearch_atoms_lens _ hatoms u j lens' hu]
    dsimp only
    simp only [List.sum_cons, List.sum_nil, Nat.add_zero, List.length_cons,
      List.length_append, List.length_replicate, List.length_map, List.length_nil]
    rw [hpidlen]
    omega
  have hHNE : ∀ (u : List Char) (j : Nat) (lens' : List Nat),
      reSearch [(groupText s i lens 2).map (fun c => RElem.atom (RAtom.lit c))] u
        = some (j, lens') → lens'.sum ≠ 0 := by
    intro u j lens' hu
    rw [reSearch_atoms_lens _ hatoms u j lens' hu]
    simp only [List.sum_cons, List.sum_nil, Nat.add_zero, List.length_map]
    rw [hpidlen]
    omega
  have hspec := reSub_spec
    [(groupText s i lens 2).map (fun c => RElem.atom (RAtom.lit c))]
    (fun _ _ => '"' :: (List.replicate ((groupText s i lens 2).length - 2) 'x' ++ ['"']))
    hHR hHNE s
  constructor
  · rw [← ht]
    exact hspec.1
  · intro sps hsp q hq
    unfold anonIdSpans at hsp
    rw [hr] at hsp
    dsimp only [Option.bind_eq_bind, Option.some_bind] at hsp
    rw [compileLits_noSpecial _ hns] at hsp
    dsimp only [Option.bind_eq_bind, Option.some_bind] at hsp
    have hsps := Option.some.inj hsp
    rw [← ht]
    exact hspec.2 q (by rw [hsps]; exact hq)

/-- The birth-date pass preserves length — and touches only its recorded
spans — whenever the date value has no regex-special character and is
exactly 10 characters long. -/
theorem anonBdayStep_spec (s t : List Char) (h : anonBdayStep s = some t)
    (hok : anonBdayOk s = true) :
    t.length = s.length ∧
    ∀ sps, anonBdaySpans s = some sps →
      ∀ q : Nat, (∀ sp ∈ sps, q < sp.1 ∨ sp.2 ≤ q) → t.get? q = s.get? q := by
  unfold anonBdayStep at h
  cases hr : reSearch anonBirthDayPat s with
  | none =>
    rw [hr] at h
    dsimp only [Option.bind_eq_bind, Option.none_bind] at h
    exact Option.noConfusion h
  | some m =>
  obtain ⟨i, lens⟩ := m
  rw [hr] at h
  dsimp only [Option.bind_eq_bind, Option.some_bind] at h
  obtain ⟨hns, hlen10⟩ := anonBdayOk_spec s hok i lens hr
  rw [compileLits_noSpecial _ hns] at h
  dsimp only [Option.bind_eq_bind, Option.some_bind] at h
  have ht := Option.some.inj h
  have hatoms : ∀ e ∈ (groupText s i lens 2).map (fun c => RElem.atom (RAtom.lit c)),
      ∃ a0, e = RElem.atom a0 := by
    intro e he
    obtain ⟨c0, -, hc0⟩ := List.mem_map.1 he
    exact ⟨_, hc0.symm⟩
  have hHR : ∀ (u : List Char) (j : Nat) (lens' : List Nat),
      reSearch [(groupText s i lens 2).map (fun c => RElem.atom (RAtom.lit c))] u
        = some (j, lens') →
      (((fun _ _ => "\"19700101\"".toList) :
            List Char → List (List Char) → List Char)
        ((u.drop j).take lens'.sum) (groupTextsAt u j lens')).length = lens'.sum := by
    intro u j lens' hu
    rw [reSearch_atoms_lens _ hatoms u j lens' hu]
    dsimp only
    simp only [List.sum_cons, List.sum_nil, Nat.add_zero, List.length_map]
    rw [hlen10]
    decide
  have hHNE : ∀ (u : List Char) (j : Nat) (lens' : List Nat),
      reSearch [(groupText s i lens 2).map (fun c => RElem.atom (RAtom.lit c))] u
        = some (j, lens') → lens'.sum ≠ 0 := by
    intro u j lens' hu
    rw [reSearch_atoms_lens _ hatoms u j lens' hu]
    simp only [List.sum_cons, List.sum_nil, Nat.add_zero, List.length_map]
    rw [hlen10]
    omega
  have hspec := reSub_spec
    [(groupText s i lens 2).map (fun c => RElem.atom (RAtom.lit c))]
    (fun _ _ => "\"19700101\"".toList) hHR hHNE s
  constructor
  · rw [← ht]
    exact hspec.1
  · intro sps hsp q hq
    unfold anonBdaySpans at hsp
    rw [hr] at hsp
    dsimp only [Option.bind_eq_bind, Option.some_bind] at hsp
    rw [compileLits_noSpecial _ hns] at hsp
    dsimp only [Option.bind_eq_bind, Option.some_bind] at hsp
    have hsps := Option.some.inj hsp
    rw [← ht]
    exact hspec.2 q (by rw [hsps]; exact hq)

/-- Single-character substitutions (`[^\"]` → `x`, `\w` → `x`) preserve the
subject's length. -/
theorem reSub_single_atom_length (a : RAtom) (m : List Char) :
    (reSub [[RElem.atom a]] (fun _ _ => ['x']) m).length = m.length := by
  have hatoms : ∀ e ∈ [RElem.atom a], ∃ a0, e = RElem.atom a0 := by
    intro e he
    rw [List.mem_singleton] at he
    exact ⟨_, he⟩
  refine (reSub_spec [[RElem.atom a]] (fun _ _ => ['x']) ?_ ?_ m).1
  · intro u j lens' hu
    rw [reSearch_atoms_lens _ hatoms u j lens' hu]
    rfl
  · intro u j lens' hu
    rw [reSearch_atoms_lens _ hatoms u j lens' hu]
    simp only [List.length_cons, List.length_nil, List.sum_cons, List.sum_nil]
    omega

/-- The name pass preserves length and touches only its recorded spans
(no side condition: the name is `re.escape`d before being used as a
pattern, and the replacement rewrites the matched text character by
character). -/
theorem anonNameStep_spec (s t : List Char) (h : anonNameStep s = some t) :
    t.length = s.length ∧
    ∀ sps, anonNameSpans s = some sps →
      ∀ q : Nat, (∀ sp ∈ sps, q < sp.1 ∨ sp.2 ≤ q) → t.get? q = s.get? q := by
  unfold anonNameStep at h
  cases hr : reSearch anonNamePat s with
  | none =>
    rw [hr] at h
    dsimp only [Option.bind_eq_bind, Option.none_bind] at h
    exact Option.noConfusion h
  | some m =>
  obtain ⟨i, lens⟩ := m
  rw [hr] at h
  dsimp only [Option.bind_eq_bind, Option.some_bind] at h
  rw [compileLits_reEscape] at h
  dsimp only [Option.bind_eq_bind, Option.some_bind] at h
  have ht := Option.some.inj h
  obtain ⟨a, b, c, hlens, hb3⟩ := reSearch_quoted_lens _ _ s i lens hr
  obtain ⟨hbound, _, _⟩ := reSearch_spec _ s i lens hr
  have hnmlen : (groupText s i lens 2).length = b := by
    rw [groupText_length s i lens 2 hbound (by rw [hlens]; simp), hlens]
    rfl
  have hatoms : ∀ e ∈ (groupText s i lens 2).map (fun c => RElem.atom (RAtom.lit c)),
      ∃ a0, e = RElem.atom a0 := by
    intro e he
    obtain ⟨c0, -, hc0⟩ := List.mem_map.1 he
    exact ⟨_, hc0.symm⟩
  have hHR : ∀ (u : List Char) (j : Nat) (lens' : List Nat),
      reSearch [(groupText s i lens 2).map (fun c => RElem.atom (RAtom.lit c))] u
        = some (j, lens') →
      (((fun m0 _ => reSub notQuotePat (fun _ _ => ['x']) m0) :
            List Char → List (List Char) → List Char)
        ((u.drop j).take lens'.sum) (groupTextsAt u j lens')).length = lens'.sum := by
    intro u j lens' hu
    obtain ⟨hbound', _, _⟩ := reSearch_spec _ u j lens' hu
    dsimp only
    rw [notQuotePat]
    rw [reSub_single_atom_length]
    rw [List.length_take, List.length_drop]
    exact Nat.min_eq_left (by omega)
  have hHNE : ∀ (u : List Char) (j : Nat) (lens' : List Nat),
      reSearch [(groupText s i lens 2).map (fun c => RElem.atom (RAtom.lit c))] u
        = some (j, lens') → lens'.sum ≠ 0 := by
    intro u j lens' hu
    rw [reSearch_atoms_lens _ hatoms u j lens' hu]
    simp only [List.sum_cons, List.sum_nil, Nat.add_zero, List.length_map]
    rw [hnmlen]
    omega
  have hspec := reSub_spec
    [(groupText s i lens 2).map (fun c => RElem.atom (RAtom.lit c))]
    (fun m0 _ => reSub notQuotePat (fun _ _ => ['x']) m0) hHR hHNE s
  constructor
  · rw [← ht]
    exact hspec.1
  · intro sps hsp q hq
    unfold anonNameSpans at hsp
    rw [hr] at hsp
    dsimp only [Option.bind_eq_bind, Option.some_bind] at hsp
    rw [compileLits_reEscape] at hsp
    dsimp only [Option.bind_eq_bind, Option.some_bind] at hsp
    have hsps := Option.some.inj hsp
    rw [← ht]
    exact hspec.2 q (by rw [hsps]; exact hq)

/-- The sex pass preserves length — and touches only its span — whenever
the sex field holds a single digit. -/
theorem anonSexStep_spec (s t : List Char) (h : anonSexStep s = some t)
    (hok : anonSexOk s = true) :
    t.length = s.length ∧
    ∀ sps, anonSexSpans s = some sps →
      ∀ q : Nat, (∀ sp ∈ sps, q < sp.1 ∨ sp.2 ≤ q) → t.get? q = s.get? q := by
  unfold anonSexStep at h
  cases hr : reSearch patientSexPat s with
  | none =>
    rw [hr] at h
    dsimp only [Option.bind_eq_bind, Option.none_bind] at h
    exact Option.noConfusion h
  | some m =>
  obtain ⟨i, lens⟩ := m
  rw [hr] at h
  dsimp only [Option.bind_eq_bind, Option.some_bind] at h
  have ht := Option.some.inj h
  have hgd := anonSexOk_spec s hok i lens hr
  obtain ⟨hbound, hplen, _⟩ := reSearch_spec _ s i lens hr
  have hlen3 : lens.length = 3 := hplen
  have hsum := sum_take_getD_le lens 1 (by omega)
  simp only [groupSpan, show (2 : Nat) - 1 = 1 from rfl] at ht
  rw [hgd] at ht
  have hin : i + (lens.take 1).sum + 1 ≤ s.length := by omega
  constructor
  · rw [← ht]
    rw [List.length_append, List.length_cons, List.length_take, List.length_drop,
      Nat.min_eq_left (show i + (lens.take 1).sum ≤ s.length from by omega)]
    omega
  · intro sps hsp q hq
    unfold anonSexSpans at hsp
    rw [hr] at hsp
    dsimp only [Option.bind_eq_bind, Option.some_bind] at hsp
    have hsps := Option.some.inj hsp
    have hhead := hq (groupSpan i lens 2) (by rw [← hsps]; exact List.mem_singleton.2 rfl)
    simp only [groupSpan, show (2 : Nat) - 1 = 1 from rfl] at hhead
    rw [hgd] at hhead
    rw [← ht]
    rcases hhead with hlt | hge
    · rw [List.get?_append (by
        rw [List.length_take, Nat.min_eq_left (show i + (lens.take 1).sum ≤ s.length
          from by omega)]
        omega)]
      exact List.get?_take hlt
    · rw [List.get?_append_right (by
        rw [List.length_take, Nat.min_eq_left (show i + (lens.take 1).sum ≤ s.length
          from by omega)]
        omega)]
      rw [List.length_take, Nat.min_eq_left (show i + (lens.take 1).sum ≤ s.length
        from by omega)]
      rw [show q - (i + (lens.take 1).sum) = (q - (i + (lens.take 1).sum + 1)) + 1
        from by omega]
      rw [List.get?_cons_succ, List.get?_drop]
      congr 1
      omega

/-- The duplicated-sex pass always preserves length and touches only its
recorded spans: each match is rewritten to its own first and third group
texts around a single `0` replacing the single matched digit. -/
theorem anonSexDupStep_spec (s : List Char) :
    (anonSexDupStep s).length = s.length ∧
    ∀ q : Nat, (∀ sp ∈ anonSexDupSpans s, q < sp.1 ∨ sp.2 ≤ q) →
      (anonSexDupStep s).get? q = s.get? q := by
  unfold anonSexDupStep anonSexDupSpans
  refine reSub_spec sexDupPat (fun _ gs => gs.getD 0 [] ++ '0' :: gs.getD 2 []) ?_ ?_ s
  · intro u j lens' hu
    obtain ⟨a, c, hl⟩ := sexDupPat_lens u j lens' hu
    obtain ⟨hbound, _, _⟩ := reSearch_spec _ u j lens' hu
    subst hl
    simp only [List.sum_cons, List.sum_nil] at hbound
    dsimp only [groupTextsAt]
    simp only [List.getD_cons_zero, List.getD_cons_succ]
    rw [List.length_append, List.length_cons, List.length_take, List.length_take,
      List.length_drop, List.length_drop,
      Nat.min_eq_left (show a ≤ u.length - j from by omega),
      Nat.min_eq_left (show c ≤ u.length - (j + a + 1) from by omega)]
    simp only [List.sum_cons, List.sum_nil]
    omega
  · intro u j lens' hu
    obtain ⟨a, c, hl⟩ := sexDupPat_lens u j lens' hu
    subst hl
    simp only [List.sum_cons, List.sum_nil]
    omega

/-- The exam-date pass preserves length and touches only its recorded
spans (no side condition: the replacement rewrites the matched text
character by character). -/
theorem anonDateStep_spec (s t : List Char) (h : anonDateStep s = some t) :
    t.length = s.length ∧
    ∀ sps, anonDateSpans s = some sps →
      ∀ q : Nat, (∀ sp ∈ sps, q < sp.1 ∨ sp.2 ≤ q) → t.get? q = s.get? q := by
  unfold anonDateStep at h
  cases hr : reSearch frameOfReferencePat s with
  | none =>
    rw [hr] at h
    dsimp only [Option.bind_eq_bind, Option.none_bind] at h
    exact Option.noConfusion h
  | some m =>
  obtain ⟨i, lens⟩ := m
  rw [hr] at h
  dsimp only [Option.bind_eq_bind, Option.some_bind] at h
  cases hdt : (splitOn '.' (groupText s i lens 2)).get? 10 with
  | none =>
    rw [hdt] at h
    dsimp only [Option.bind_eq_bind, Option.none_bind] at h
    exact Option.noConfusion h
  | some edt =>
  rw [hdt] at h
  dsimp only [Option.bind_eq_bind, Option.some_bind] at h
  rw [mkDatePat] at h
  cases hcl : compileLits ((edt.drop 2).take 6) with
  | none =>
    rw [hcl] at h
    dsimp only [Option.map_none', Option.bind_eq_bind, Option.none_bind] at h
    exact Option.noConfusion h
  | some mid =>
  rw [hcl] at h
  dsimp only [Option.map_some', Option.bind_eq_bind, Option.some_bind] at h
  have ht := Option.some.inj h
  have hHR : ∀ (u : List Char) (j : Nat) (lens' : List Nat),
      reSearch [[RElem.atom (.lit '"'), RElem.star (.cls isDigitDotChar)] ++ mid ++
        [RElem.star (.cls isDigitDotChar), RElem.atom (.lit '"')]] u = some (j, lens') →
      (((fun m0 _ => reSub wordPat (fun _ _ => ['x']) m0) :
            List Char → List (List Char) → List Char)
        ((u.drop j).take lens'.sum) (groupTextsAt u j lens')).length = lens'.sum := by
    intro u j lens' hu
    obtain ⟨hbound', _, _⟩ := reSearch_spec _ u j lens' hu
    dsimp only
    rw [wordPat, reSub_single_atom_length, List.length_take, List.length_drop]
    exact Nat.min_eq_left (by omega)
  have hHNE : ∀ (u : List Char) (j : Nat) (lens' : List Nat),
      reSearch [[RElem.atom (.lit '"'), RElem.star (.cls isDigitDotChar)] ++ mid ++
        [RElem.star (.cls isDigitDotChar), RElem.atom (.lit '"')]] u = some (j, lens') →
      lens'.sum ≠ 0 := by
    intro u j lens' hu
    obtain ⟨b, hl, hcnt⟩ := reSearch_single_lens _ u j lens' hu
    subst hl
    rw [List.countP_append, List.countP_append] at hcnt
    have c1 : ([RElem.atom (RAtom.lit '"'),
        RElem.star (RAtom.cls isDigitDotChar)]).countP consumesOne = 1 := rfl
    have c2 : ([RElem.star (RAtom.cls isDigitDotChar),
        RElem.atom (RAtom.lit '"')]).countP consumesOne = 1 := rfl
    rw [c1, c2] at hcnt
    simp only [List.sum_cons, List.sum_nil]
    omega
  have hspec := reSub_spec
    [[RElem.atom (.lit '"'), RElem.star (.cls isDigitDotChar)] ++ mid ++
      [RElem.star (.cls isDigitDotChar), RElem.atom (.lit '"')]]
    (fun m0 _ => reSub wordPat (fun _ _ => ['x']) m0) hHR hHNE s
  constructor
  · rw [← ht]
    exact hspec.1
  · intro sps hsp q hq
    unfold anonDateSpans at hsp
    rw [hr] at hsp
    dsimp only [Option.bind_eq_bind, Option.some_bind] at hsp
    rw [hdt] at hsp
    dsimp only [Option.bind_eq_bind, Option.some_bind] at hsp
    rw [mkDatePat, hcl] at hsp
    dsimp only [Option.map_some', Option.bind_eq_bind, Option.some_bind] at hsp
    have hsps := Option.some.inj hsp
    rw [← ht]
    exact hspec.2 q (by rw [hsps]; exact hq)

/-- Under the side conditions, a successful anonymization preserves the
header text's length. -/
theorem anonymize_header_len (s t : List Char)
    (h : anonymize_twix_header s = some t) (hcond : anonCondsOk s = true) :
    t.length = s.length := by
  obtain ⟨s1, s2, s3, s4, h1, h2, h3, h4, h5⟩ := anonymize_chain s t h
  have l1 := (anonIdStep_spec s s1 h1 (anonCondsOk_id s hcond)).1
  have l2 := (anonBdayStep_spec s1 s2 h2 (anonCondsOk_bday s s1 hcond h1)).1
  have l3 := (anonNameStep_spec s2 s3 h3).1
  have l4 := (anonSexStep_spec s3 s4 h4 (anonCondsOk_sex s s1 s2 s3 hcond h1 h2 h3)).1
  have l5 := (anonSexDupStep_spec s4).1
  have l6 := (anonDateStep_spec (anonSexDupStep s4) t h5).1
  omega

/-- Claim C5 (amended): anonymization changes nothing outside the spans its
six passes rewrite — every position of the header outside the spans
recorded for the identifier, birth-date, name, sex, duplicated-sex and
exam-date passes (each pass replacing **every** occurrence its pattern
matches, not only the declared field) is identical between the original
and the anonymized text, provided the identifier and birth-date values
contain no regex-special character, the birth-date value is the 10
character quoted 8-digit form, and the sex field holds a single digit. -/
theorem claim_C5_amended (s t : List Char) (sps : List (Nat × Nat))
    (h : anonymize_twix_header s = some t)
    (hsp : anonAllSpans s = some sps)
    (hcond : anonCondsOk s = true)
    (q : Nat) (hq : ∀ sp ∈ sps, q < sp.1 ∨ sp.2 ≤ q) :
    t.get? q = s.get? q := by
  obtain ⟨s1, s2, s3, s4, h1, h2, h3, h4, h5⟩ := anonymize_chain s t h
  unfold anonAllSpans at hsp
  cases hsp1 : anonIdSpans s with
  | none =>
    rw [hsp1] at hsp
    dsimp only [Option.bind_eq_bind, Option.none_bind] at hsp
    exact Option.noConfusion hsp
  | some sps1 =>
  rw [hsp1, h1] at hsp
  dsimp only [Option.bind_eq_bind, Option.some_bind] at hsp
  cases hsp2 : anonBdaySpans s1 with
  | none =>
    rw [hsp2] at hsp
    dsimp only [Option.bind_eq_bind, Option.none_bind] at hsp
    exact Option.noConfusion hsp
  | some sps2 =>
  rw [hsp2, h2] at hsp
  dsimp only [Option.bind_eq_bind, Option.some_bind] at hsp
  cases hsp3 : anonNameSpans s2 with
  | none =>
    rw [hsp3] at hsp
    dsimp only [Option.bind_eq_bind, Option.none_bind] at hsp
    exact Option.noConfusion hsp
  | some sps3 =>
  rw [hsp3, h3] at hsp
  dsimp only [Option.bind_eq_bind, Option.some_bind] at hsp
  cases hsp4 : anonSexSpans s3 with
  | none =>
    rw [hsp4] at hsp
    dsimp only [Option.bind_eq_bind, Option.none_bind] at hsp
    exact Option.noConfusion hsp
  | some sps4 =>
  rw [hsp4, h4] at hsp
  dsimp only [Option.bind_eq_bind, Option.some_bind] at hsp
  cases hsp6 : anonDateSpans (anonSexDupStep s4) with
  | none =>
    rw [hsp6] at hsp
    dsimp only [Option.bind_eq_bind, Option.none_bind] at hsp
    exact Option.noConfusion hsp
  | some sps6 =>
  rw [hsp6] at hsp
  dsimp only [Option.bind_eq_bind, Option.some_bind] at hsp
  have hsps := Option.some.inj hsp
  subst hsps
  have f1 := (anonIdStep_spec s s1 h1 (anonCondsOk_id s hcond)).2 sps1 hsp1 q
    (fun sp hm => hq sp (by simp only [List.mem_append]; tauto))
  have f2 := (anonBdayStep_spec s1 s2 h2 (anonCondsOk_bday s s1 hcond h1)).2 sps2 hsp2 q
    (fun sp hm => hq sp (by simp only [List.mem_append]; tauto))
  have f3 := (anonNameStep_spec s2 s3 h3).2 sps3 hsp3 q
    (fun sp hm => hq sp (by simp only [List.mem_append]; tauto))
  have f4 := (anonSexStep_spec s3 s4 h4
      (anonCondsOk_sex s s1 s2 s3 hcond h1 h2 h3)).2 sps4 hsp4 q
    (fun sp hm => hq sp (by simp only [List.mem_append]; tauto))
  have f5 := (anonSexDupStep_spec s4).2 q
    (fun sp hm => hq sp (by simp only [List.mem_append]; tauto))
  have f6 := (anonDateStep_spec (anonSexDupStep s4) t h5).2 sps6 hsp6 q
    (fun sp hm => hq sp (by simp only [List.mem_append]; tauto))
  rw [f6, f5, f4, f3, f2, f1]

/-- Claim C1 (amended): for a variant-A container whose header-size word is
in range, anonymization preserves the file's byte length **provided** the
identifier and birth-date values contain no regex-special character, the
birth-date value is the 10-character quoted 8-digit form, and the sex
field holds a single digit; with a shorter (e.g. 6-digit) birth date the
fixed replacement `"19700101"` grows the file. -/
theorem claim_C1_amended (input out : List Nat)
    (h : anonymize_twix_vb input = some out)
    (hsz : 28 ≤ leValAt input 0 4)
    (hsz2 : leValAt input 0 4 ≤ input.length)
    (hcond : vbCondsOk input = true) :
    out.length = input.length := by
  unfold anonymize_twix_vb at h
  rw [rdBytes, if_pos (show 0 + 4 ≤ input.length from by omega)] at h
  dsimp only [Option.bind_eq_bind, Option.some_bind] at h
  simp only [Nat.zero_add] at h
  rw [← (show leValAt input 0 4 = leVal ((input.drop 0).take 4) from rfl)] at h
  cases hdec : decode1252 (((input.drop 4).take (leValAt input 0 4 - 4)).take
      (((input.drop 4).take (leValAt input 0 4 - 4)).length - 24)) with
  | none =>
    rw [hdec] at h
    dsimp only [Option.bind_eq_bind, Option.none_bind] at h
    exact Option.noConfusion h
  | some hdr =>
  rw [hdec] at h
  dsimp only [Option.bind_eq_bind, Option.some_bind] at h
  unfold vbCondsOk at hcond
  rw [hdec] at hcond
  dsimp only at hcond
  cases hanon : anonymize_twix_header hdr with
  | none =>
    rw [hanon] at h
    dsimp only [Option.bind_eq_bind, Option.none_bind] at h
    exact Option.noConfusion h
  | some anon =>
  rw [hanon] at h
  dsimp only [Option.bind_eq_bind, Option.some_bind] at h
  cases henc : encode1252 anon with
  | none =>
    rw [henc] at h
    dsimp only [Option.bind_eq_bind, Option.none_bind] at h
    exact Option.noConfusion h
  | some enc =>
  rw [henc] at h
  dsimp only [Option.bind_eq_bind, Option.some_bind] at h
  have hout := Option.some.inj h
  have hL : ((input.drop 4).take (leValAt input 0 4 - 4)).length
      = leValAt input 0 4 - 4 := by
    rw [List.length_take, List.length_drop]
    exact Nat.min_eq_left (by omega)
  have hhdr : hdr.length = leValAt input 0 4 - 4 - 24 := by
    have hm := mapM_option_length decodeByte1252 _ hdr (by
      unfold decode1252 at hdec
      exact hdec)
    rw [hm, List.length_take, hL]
    exact Nat.min_eq_left (by omega)
  have hanonlen : anon.length = hdr.length := anonymize_header_len hdr anon hanon hcond
  have henclen : enc.length = anon.length := mapM_option_length encodeChar1252 _ enc (by
    unfold encode1252 at henc
    exact henc)
  have hle4 : (le4 (leValAt input 0 4)).length = 4 := rfl
  rw [← hout]
  rw [List.length_append, List.length_append, List.length_append]
  rw [List.length_drop, List.length_drop, hL, hle4]
  omega

set_option maxRecDepth 200000 in
/-- Claim C1 counterexample: a variant-A container whose birth date has
only 6 digits is anonymized to a file 2 bytes **longer** than the input
(the fixed replacement `"19700101"` is longer than the original value), so
anonymization does not always preserve the byte length. -/
theorem claim_C1_counterexample :
    (anonymize_twix_vb (mkVbFile hBadBday)).isSome = true ∧
    ((anonymize_twix_vb (mkVbFile hBadBday)).getD []).length
      ≠ (mkVbFile hBadBday).length := by
  exact ⟨by decide, by decide⟩

set_option maxRecDepth 200000 in
/-- Claim C1 witness: the amended theorem applied to a well-formed
container. -/
theorem claim_C1_witness :
    ∃ out, anonymize_twix_vb (mkVbFile hGood) = some out ∧
      out.length = (mkVbFile hGood).length := by
  cases hob : anonymize_twix_vb (mkVbFile hGood) with
  | none =>
    have hk : (anonymize_twix_vb (mkVbFile hGood)).isSome = true := by decide
    rw [hob] at hk
    exact Bool.noConfusion hk
  | some out =>
    exact ⟨out, rfl,
      claim_C1_amended (mkVbFile hGood) out hob (by decide) (by decide) (by decide)⟩

set_option maxRecDepth 200000 in
/-- Claim C5 counterexample: in a header with an unrelated field whose
value equals the patient birth date, anonymization changes position 271 —
inside the unrelated field's value, outside every span the claim
identifies as PHI (declared identifier, birth-date and sex fields, name
occurrences, exam-date strings). -/
theorem claim_C5_counterexample :
    (anonymize_twix_header hC5).isSome = true ∧
    (claimedPhiSpans hC5).isSome = true ∧
    (∀ sp ∈ (claimedPhiSpans hC5).getD [], 271 < sp.1 ∨ sp.2 ≤ 271) ∧
    ((anonymize_twix_header hC5).getD []).get? 271 ≠ hC5.get? 271 := by
  exact ⟨by decide, by decide, by decide, by decide⟩

set_option maxRecDepth 200000 in
/-- Claim C5 witness: the amended theorem applied to a well-formed header
at position 0 (outside every rewritten span). -/
theorem claim_C5_witness :
    ∃ t sps, anonymize_twix_header hGood = some t ∧ anonAllSpans hGood = some sps ∧
      t.get? 0 = hGood.get? 0 := by
  cases h : anonymize_twix_header hGood with
  | none =>
    have hk : (anonymize_twix_header hGood).isSome = true := by decide
    rw [h] at hk
    exact Bool.noConfusion hk
  | some t =>
  cases hs : anonAllSpans hGood with
  | none =>
    have hk : (anonAllSpans hGood).isSome = true := by decide
    rw [hs] at hk
    exact Bool.noConfusion hk
  | some sps =>
  have hd : ∀ sp ∈ (anonAllSpans hGood).getD [], 0 < sp.1 ∨ sp.2 ≤ 0 := by decide
  rw [hs] at hd
  exact ⟨t, sps, rfl, rfl,
    claim_C5_amended hGood t sps h hs (by decide) 0 (by simpa using hd)⟩

end Twix
